import Mathlib

/-!
Verification of the cache replay engine of the htc-cache-system-simulator
repository against its specification.

The Python sources are shallowly embedded: Python dicts become association
lists operated on by first-occurrence lookup/update/remove (faithful because
the Python dicts never hold duplicate keys), Python ints become Nat/Int,
float credit arithmetic (which on the integral inputs appearing here is
exact) becomes Rat, and raised exceptions become Option results.

File identifiers (opaque strings compared by identity in the source) and
part indices are both embedded as Nat.

The file is laid out with all definitions first, followed by all theorems.
-/

namespace Sim

/-- First-occurrence lookup in an association list, matching Python dict
reads (the dicts modelled never hold duplicate keys). -/
def alookup {α : Type} : List (Nat × α) → Nat → Option α
  | [], _ => none
  | (k, v) :: rest, key => if k = key then some v else alookup rest key

/-- Set a key, replacing the first binding if present, appending otherwise;
matches Python dict item assignment. -/
def aset {α : Type} : List (Nat × α) → Nat → α → List (Nat × α)
  | [], k, v => [(k, v)]
  | (k', v') :: rest, k, v =>
    if k' = k then (k, v) :: rest else (k', v') :: aset rest k v

/-- Remove the first binding of a key if present; matches Python dict
deletion (call sites guard presence where Python would raise KeyError). -/
def aremove {α : Type} : List (Nat × α) → Nat → List (Nat × α)
  | [], _ => []
  | (k', v') :: rest, k => if k' = k then rest else (k', v') :: aremove rest k

/-! ## Storage (src/src/simulator/cache/storage.py)

A file's cached parts are a mapping part index to stored prefix size; the
storage maps file ids to such mappings and tracks a used-bytes counter.
The counter is embedded as Int, exactly like a Python int. -/

/-- Per-part stored sizes of one file: Python dict PartInd to BytesSize. -/
abbrev FileParts := List (Nat × Nat)

/-- Stored size of one part, 0 when absent: file_parts.get(part_ind, 0). -/
def partGet (fp : FileParts) (ind : Nat) : Nat := (alookup fp ind).getD 0

/-- Sum of the stored per-part sizes of one file. -/
def partsSum (fp : FileParts) : Nat := (fp.map (·.2)).sum

/-- Sum of the stored per-part sizes over all files. -/
def filesSum (files : List (Nat × FileParts)) : Nat :=
  (files.map (fun p => partsSum p.2)).sum

/-- Storage state: capacity, used-bytes counter and the file map
(Storage.__init__). -/
structure Storage where
  total_bytes : Nat
  used_bytes : Int
  files : List (Nat × FileParts)
  deriving Repr, DecidableEq

/-- A fresh storage of the given capacity. -/
def Storage.mk0 (total : Nat) : Storage := ⟨total, 0, []⟩

/-- Storage.free_bytes. -/
def Storage.free_bytes (s : Storage) : Int := (s.total_bytes : Int) - s.used_bytes

/-- Storage.contains_file. -/
def Storage.containsFile (s : Storage) (f : Nat) : Bool :=
  (alookup s.files f).isSome

/-- Storage.parts: all parts of the file contained in the storage, sorted
by part index. -/
def Storage.partsOf (s : Storage) (f : Nat) : FileParts :=
  match alookup s.files f with
  | none => []
  | some fp => fp.mergeSort (fun a b => a.1 ≤ b.1)

/-- Total requested bytes of a parts sequence. -/
def requestedBytes (parts : List (Nat × Nat)) : Nat := (parts.map (·.2)).sum

/-- Storage.contained_bytes: sum over the requested parts of
min(stored size, requested size). -/
def Storage.containedBytes (s : Storage) (f : Nat) (parts : List (Nat × Nat)) : Nat :=
  match alookup s.files f with
  | none => 0
  | some fp => (parts.map (fun p => min (partGet fp p.1) p.2)).sum

/-- Storage.missing_bytes. The Nat subtraction is exact because the
contained bytes never exceed the requested bytes. -/
def Storage.missingBytes (s : Storage) (f : Nat) (parts : List (Nat × Nat)) : Nat :=
  requestedBytes parts - s.containedBytes f parts

/-- One update step of Storage.place: store the element-wise max of the
existing and the requested size of one part. -/
def placeStep (cur : FileParts) (p : Nat × Nat) : FileParts :=
  aset cur p.1 (max (partGet cur p.1) p.2)

/-- Storage.place. Returns the new storage and the bytes added, or none in
place of the InsufficientFreeSpace exception; the exception is raised
before any mutation, so the failing case carries the unchanged storage. -/
def Storage.placeSt (s : Storage) (f : Nat) (parts : List (Nat × Nat)) :
    Storage × Option Nat :=
  let missing := s.missingBytes f parts
  if s.free_bytes < (missing : Int) then (s, none)
  else
    let fp := (alookup s.files f).getD []
    let fp' := parts.foldl placeStep fp
    ({ s with files := aset s.files f fp',
               used_bytes := s.used_bytes + missing }, some missing)

/-- Storage.evict: remove the file entirely, returning the bytes removed
(0 if absent). -/
def Storage.evictFile (s : Storage) (f : Nat) : Storage × Nat :=
  match alookup s.files f with
  | none => (s, 0)
  | some fp =>
    let ev := partsSum fp
    ({ s with files := aremove s.files f, used_bytes := s.used_bytes - ev }, ev)

/-- Inner loop of Storage.evict_partially over the candidate part indices.
full = true is the fraction == 1.0 branch (pop the whole part); otherwise
r sz stands for round(fraction * part_size). Membership is re-checked at
each step, matching the lazily filtered Python generator. -/
def evictPartsGo (full : Bool) (r : Nat → Nat) :
    FileParts → List Nat → FileParts × Nat
  | fp, [] => (fp, 0)
  | fp, ind :: rest =>
    match alookup fp ind with
    | none => evictPartsGo full r fp rest
    | some sz =>
      if full then
        let res := evictPartsGo full r (aremove fp ind) rest
        (res.1, sz + res.2)
      else
        let ev := r sz
        let rem := sz - ev
        let fp1 := if rem = 0 then aremove fp ind else aset fp ind rem
        let res := evictPartsGo full r fp1 rest
        (res.1, ev + res.2)

/-- Storage.evict_partially. cands = none means all parts in cache are
considered (the Python snapshot of the keys). -/
def Storage.evictPart (s : Storage) (f : Nat) (full : Bool) (r : Nat → Nat)
    (cands : Option (List Nat)) : Storage × Nat :=
  match alookup s.files f with
  | none => (s, 0)
  | some fp =>
    let cl := match cands with
      | none => fp.map (·.1)
      | some ps => ps
    let res := evictPartsGo full r fp cl
    let files' := if res.1 = [] then aremove s.files f else aset s.files f res.1
    ({ s with files := files', used_bytes := s.used_bytes - res.2 }, res.2)

/-- Element-wise maximum of the requested sizes of a parts sequence for a
given part index (0 when the index is not requested). -/
def partsMax : List (Nat × Nat) → Nat → Nat
  | [], _ => 0
  | (i, b) :: tl, ind => if i = ind then max b (partsMax tl ind) else partsMax tl ind

/-- A call against a Storage: the three mutating operations of the claims.
For evict_partially, full = true is the fraction == 1.0 branch and r
abstracts round(fraction * size) otherwise. -/
inductive SOp where
  | place (f : Nat) (parts : List (Nat × Nat))
  | evict (f : Nat)
  | evictPart (f : Nat) (full : Bool) (r : Nat → Nat) (cands : Option (List Nat))

/-- Apply one call. A failing place raises InsufficientFreeSpace before any
mutation, leaving the state unchanged. -/
def SOp.apply (s : Storage) : SOp → Storage
  | SOp.place f parts => (s.placeSt f parts).1
  | SOp.evict f => (s.evictFile f).1
  | SOp.evictPart f full r cands => (s.evictPart f full r cands).1

/-- Run a sequence of calls from a given storage. -/
def runOps (s : Storage) (ops : List SOp) : Storage :=
  ops.foldl SOp.apply s

/-- A call is within the interface contract: its parts sequence names each
part index at most once (places), and the rounding of fraction * size never
exceeds the size (fraction lies in 0..1, which the source validates). -/
def SOp.Valid : SOp → Prop
  | SOp.place _ parts => (parts.map Prod.fst).Nodup
  | SOp.evict _ => True
  | SOp.evictPart _ _ r _ => ∀ n, r n ≤ n

/-- The C4 storage invariant: the used-bytes counter equals the sum of all
stored per-part sizes and never exceeds the capacity. -/
def StorageInv (s : Storage) : Prop :=
  s.used_bytes = (filesSum s.files : Int) ∧ s.used_bytes ≤ (s.total_bytes : Int)

/-! ## ReuseTimer (src/src/simulator/dstructures/accessseq.py)

ReuseTimer only reads access.file, so the access sequence is embedded as
the list of accessed file ids. -/

/-- The reversed building loop of ReuseTimer._build_reuse_ind: processing
the suffix of the access sequence that starts at absolute index i, it
returns the reuse indices for that suffix together with the next_access
map (file to smallest absolute index in the suffix, as a cons-shadowed
association list). -/
def buildReuseAux (N : Nat) : List Nat → Nat → List Nat × List (Nat × Nat)
  | [], _ => ([], [])
  | f :: rest, i =>
    let res := buildReuseAux N rest (i + 1)
    (((alookup res.2 f).getD N) :: res.1, (f, i) :: res.2)

/-- ReuseTimer._build_reuse_ind: for every index the next index accessing
the same file, or the sequence length when there is none. -/
def buildReuseInd (files : List Nat) : List Nat :=
  (buildReuseAux files.length files 0).1

/-- ReuseTimer.reuse_time. -/
def reuse_time (files : List Nat) (i : Nat) : Option Nat :=
  if (buildReuseInd files).getD i 0 ≥ (buildReuseInd files).length then none
  else some ((buildReuseInd files).getD i 0 - i)

/-- ReuseTimer.reuse_ind. -/
def reuse_ind (files : List Nat) (i : Nat) : Option Nat :=
  if (buildReuseInd files).getD i 0 ≥ (buildReuseInd files).length then none
  else some ((buildReuseInd files).getD i 0)

/-- ReuseTimer.reuse_ind_inf, with math.inf embedded as the top element. -/
def reuse_ind_inf (files : List Nat) (i : Nat) : WithTop Nat :=
  if (buildReuseInd files).getD i 0 ≥ (buildReuseInd files).length then ⊤
  else ((buildReuseInd files).getD i 0 : WithTop Nat)

/-- Index of the first occurrence of a value in a list. -/
def idxOf? (g : Nat) : List Nat → Option Nat
  | [] => none
  | x :: xs => if x = g then some 0 else (idxOf? g xs).map (· + 1)

/-- The specification of one stored reuse index: the smallest j above i
accessing the same file, and the sequence length when there is none. -/
def NextUseSpec (files : List Nat) (i r : Nat) : Prop :=
  i < r ∧ r ≤ files.length
  ∧ (r < files.length → files[r]? = files[i]?)
  ∧ (∀ j, i < j → j < r → files[j]? ≠ files[i]?)

/-! ## The state-driven processor (src/src/simulator/cache/state.py)

StateDrivenProcessor._process_access drives a Storage and a policy State.
The policy is abstracted as two functions: pop_eviction_candidates (none
embeds a raised exception, e.g. IndexError on an empty queue) and
process_access (none embeds a raised KeyError/NotInCache). -/

/-- An access: timestamp, file id and the requested parts. -/
structure Access where
  access_ts : Nat
  file : Nat
  parts : List (Nat × Nat)
  deriving Repr, DecidableEq

/-- AccessInfo (src/src/simulator/cache/processor.py). -/
structure AccessInfo where
  access : Access
  file_hit : Bool
  bytes_hit : Nat
  bytes_missed : Nat
  bytes_added : Nat
  bytes_removed : Nat
  total_bytes : Nat
  evicted_files : List Nat
  deriving Repr, DecidableEq

/-- AccessInfo.bytes_requested. -/
def AccessInfo.bytes_requested (i : AccessInfo) : Nat := i.bytes_hit + i.bytes_missed

/-- The keyword context handed to pop_eviction_candidates. -/
structure PolContext where
  file : Nat
  ts : Nat
  ind : Nat
  requested_bytes : Nat
  contained_bytes : Nat
  missing_bytes : Nat
  in_cache_bytes : Nat
  free_bytes : Int
  required_free_bytes : Int
  deriving Repr

/-- A policy State: pop_eviction_candidates and process_access. -/
structure Policy (σ : Type) where
  popCandidates : σ → PolContext → Option (List Nat × σ)
  procAcc : σ → Nat → Nat → Bool → AccessInfo → Option σ

/-- The mutable locals of the eviction loop of _process_access. -/
structure LoopSt where
  storage : Storage
  free_bytes : Int
  evicted_files : List Nat
  evicted_bytes : Nat
  contained_bytes : Nat
  missing_bytes : Nat
  in_cache_bytes : Nat
  deriving Repr, DecidableEq

/-- Evicting one candidate inside the loop; when the candidate is the
accessed file itself the access is treated as a complete miss from that
point on. -/
def evictOne (file requested_bytes : Nat) (st : LoopSt) (cand : Nat) : LoopSt :=
  let ev := st.storage.evictFile cand
  let st' : LoopSt := { st with
    storage := ev.1,
    evicted_files := st.evicted_files ++ [cand],
    evicted_bytes := st.evicted_bytes + ev.2,
    free_bytes := st.free_bytes + (ev.2 : Int) }
  if cand = file then
    { st' with contained_bytes := 0, missing_bytes := requested_bytes,
               in_cache_bytes := 0 }
  else st'

/-- The while-loop of _process_access, fuel-bounded: pop candidates while
free_bytes < missing_bytes. none embeds a raised exception or a loop that
does not terminate within the fuel. -/
def evictLoop {σ : Type} (pol : Policy σ) (access : Access)
    (ind requested_bytes : Nat) :
    Nat → σ → LoopSt → Option (σ × LoopSt)
  | 0, _, _ => none
  | fuel + 1, polSt, st =>
    if st.free_bytes < (st.missing_bytes : Int) then
      match pol.popCandidates polSt
        ⟨access.file, access.access_ts, ind, requested_bytes,
         st.contained_bytes, st.missing_bytes, st.in_cache_bytes,
         st.free_bytes, (st.missing_bytes : Int) - st.free_bytes⟩ with
      | none => none
      | some cs =>
        evictLoop pol access ind requested_bytes fuel cs.2
          (cs.1.foldl (evictOne access.file requested_bytes) st)
    else some (polSt, st)

/-- StateDrivenProcessor._process_access. in_cache_bytes sums the sizes
returned by Storage.parts; that method sorts its output, which leaves the
sum unchanged, so the raw stored mapping is summed here. -/
def processOneAccess {σ : Type} (pol : Policy σ) (fuel : Nat) (storage : Storage)
    (polSt : σ) (ind : Nat) (access : Access) :
    Option (AccessInfo × Storage × σ) :=
  let file_hit := storage.containsFile access.file
  let requested_bytes := requestedBytes access.parts
  let contained_bytes := storage.containedBytes access.file access.parts
  let missing_bytes := requested_bytes - contained_bytes
  let in_cache_bytes := partsSum ((alookup storage.files access.file).getD [])
  if missing_bytes = 0 then
    let info : AccessInfo :=
      ⟨access, true, contained_bytes, missing_bytes, 0, 0, in_cache_bytes, []⟩
    match pol.procAcc polSt access.file ind false info with
    | none => none
    | some polSt' => some (info, storage, polSt')
  else
    match evictLoop pol access ind requested_bytes fuel polSt
        ⟨storage, storage.free_bytes, [], 0,
         contained_bytes, missing_bytes, in_cache_bytes⟩ with
    | none => none
    | some res =>
      match res.2.storage.placeSt access.file access.parts with
      | (_, none) => none
      | (storage', some placed) =>
        let total_bytes := res.2.in_cache_bytes + placed
        let info : AccessInfo :=
          ⟨access, file_hit, res.2.contained_bytes, res.2.missing_bytes,
           placed, res.2.evicted_bytes, total_bytes, res.2.evicted_files⟩
        match pol.procAcc res.1 access.file ind (res.2.in_cache_bytes = 0) info with
        | none => none
        | some polSt' => some (info, storage', polSt')

/-! ## The LRU policy (src/simulator/cache/algorithms/lru.py)

The LRUStructure is an OrderedDict: new keys are appended at the end,
access moves a key to the front, pop removes the last (least recently
accessed) key. The values are always None, so the state is the key list
with the most recently accessed file first. -/

/-- LRUStructure.__setitem__: a new key is appended at the end, an
existing key keeps its position. -/
def lruSet (l : List Nat) (f : Nat) : List Nat := if f ∈ l then l else l ++ [f]

/-- LRU.State.process_access: insert when ensure is set, then move the
file to the front; a missing file makes move_to_end raise KeyError. -/
def lruProcAcc (l : List Nat) (f : Nat) (ensure : Bool) : Option (List Nat) :=
  let l1 := if ensure then lruSet l f else l
  if f ∈ l1 then some (f :: l1.erase f) else none

/-- LRU.State.pop_eviction_candidates: pop the last (least recently
accessed) file; raises KeyError when empty. -/
def lruPop (l : List Nat) : Option (List Nat × List Nat) :=
  match l.getLast? with
  | none => none
  | some f => some ([f], l.dropLast)

/-- The LRU policy. -/
def lruPolicy : Policy (List Nat) where
  popCandidates := fun l _ => lruPop l
  procAcc := fun l f _ ensure _ => lruProcAcc l f ensure

/-! ## GreedyDual (src/simulator/cache/algorithms/greedydual.py)

Credits are Python floats; every value arising here is produced by
additions and max of machine integers and earlier values, which float
arithmetic represents exactly on the inputs of the theorems below, so
credits are embedded as Rat. -/

/-- GreedyDual.State: the keyed priority queue content (file id to running
credit and the access_threshold data field) and the running threshold. -/
structure GDState where
  entries : List (Nat × ℚ × ℚ)
  threshold : ℚ
  deriving Repr, DecidableEq

/-- The GreedyDual mode. -/
inductive GDMode where
  | TOTAL_SIZE
  | ACCESS_SIZE
  deriving Repr, DecidableEq

/-- Modelled from the spec: the keyed priority queue backing GreedyDual is
the external apq package, absent from the repository; the spec describes
it as a min-heap with lookup by key, so pop returns an entry of minimal
value (the earliest such entry here). -/
def gdArgmin : List (Nat × ℚ × ℚ) → Option (Nat × ℚ)
  | [] => none
  | (f, v, _) :: rest =>
    match gdArgmin rest with
    | none => some (f, v)
    | some gw => if v ≤ gw.2 then some (f, v) else some gw

/-- GreedyDual.State.pop_eviction_candidates: pop the minimum, record its
value as the new threshold, return its file. -/
def gdPop (st : GDState) : Option (List Nat × GDState) :=
  match gdArgmin st.entries with
  | none => none
  | some fv => some ([fv.1], ⟨aremove st.entries fv.1, fv.2⟩)

/-- GreedyDual.State.process_access (both modes; the heap entry update
add_or_change_value is the keyed set). -/
def gdProcAcc (mode : GDMode) (st : GDState) (file : Nat) (info : AccessInfo) :
    GDState :=
  match mode with
  | GDMode.TOTAL_SIZE =>
    let credit : ℚ := (info.total_bytes : ℚ) + st.threshold
    ⟨aset st.entries file (st.threshold + credit, st.threshold), st.threshold⟩
  | GDMode.ACCESS_SIZE =>
    let current : ℚ :=
      match alookup st.entries file with
      | some e => e.1 - st.threshold
      | none => 0
    let credit := max current (info.bytes_requested : ℚ)
    ⟨aset st.entries file (st.threshold + credit, st.threshold), st.threshold⟩

/-- The GreedyDual policy for the state-driven processor. -/
def gdPolicy (mode : GDMode) : Policy GDState where
  popCandidates := fun st _ => gdPop st
  procAcc := fun st f _ _ info => some (gdProcAcc mode st f info)

/-- The current credit of a file as the claim defines it: the stored value
minus the current threshold, 0 for a file not in the queue. -/
def gdCurrentCredit (st : GDState) (file : Nat) : ℚ :=
  match alookup st.entries file with
  | some e => e.1 - st.threshold
  | none => 0

/-- The cost of an access as the claim defines it per mode: the total
cached bytes in TOTAL_SIZE mode, the requested bytes in ACCESS_SIZE
mode. -/
def gdCost (mode : GDMode) (info : AccessInfo) : ℚ :=
  match mode with
  | GDMode.TOTAL_SIZE => (info.total_bytes : ℚ)
  | GDMode.ACCESS_SIZE => (info.bytes_requested : ℚ)

/-! ## FileLRUDict (src/simulator/dstructures/lru.py)

An OrderedDict from file id to a FileInfo carrying a size (a Python int,
embedded as Int), plus a total_size counter. New keys are appended at the
end, existing keys keep their position, pop removes the last item. -/

/-- FileLRUDict state: the ordered entries and the total_size counter. -/
structure FileLRU where
  entries : List (Nat × Int)
  total_size : Int
  deriving Repr, DecidableEq

/-- Sum of the sizes stored in a FileLRUDict. -/
def entriesSum (l : List (Nat × Int)) : Int := (l.map (·.2)).sum

/-- The FileLRUDict operations of the claim. -/
inductive FOp where
  | setitem (f : Nat) (size : Int)
  | delitem (f : Nat)
  | pop
  | addBytesToFile (f : Nat) (n : Int)
  | removeBytesToFile (f : Nat) (n : Int)
  deriving Repr, DecidableEq

/-- Apply one FileLRUDict operation. Operations that raise KeyError before
mutating (deleting or resizing an absent key, popping an empty dict) leave
the state unchanged. __setitem__ adds the new size to total_size without
subtracting the size of an overwritten entry. -/
def FOp.apply (d : FileLRU) : FOp → FileLRU
  | FOp.setitem f sz => ⟨aset d.entries f sz, d.total_size + sz⟩
  | FOp.delitem f =>
    match alookup d.entries f with
    | none => d
    | some sz => ⟨aremove d.entries f, d.total_size - sz⟩
  | FOp.pop =>
    match d.entries.getLast? with
    | none => d
    | some e => ⟨d.entries.dropLast, d.total_size - e.2⟩
  | FOp.addBytesToFile f n =>
    match alookup d.entries f with
    | none => d
    | some sz => ⟨aset d.entries f (sz + n), d.total_size + n⟩
  | FOp.removeBytesToFile f n =>
    match alookup d.entries f with
    | none => d
    | some sz => ⟨aset d.entries f (sz - n), d.total_size - n⟩

/-- Run FileLRUDict operations from a given state. -/
def runFOps (d : FileLRU) (ops : List FOp) : FileLRU :=
  ops.foldl FOp.apply d

/-- The C10 invariant: total_size equals the sum of the stored sizes. -/
def FInv (d : FileLRU) : Prop := d.total_size = entriesSum d.entries

/-- An operation is overwrite-free in a state: __setitem__ only targets
keys not currently present. -/
def FOpValidIn (d : FileLRU) : FOp → Bool
  | FOp.setitem f _ => (alookup d.entries f).isNone
  | _ => true

/-- A trace is overwrite-free when every __setitem__ in it targets a key
absent at that point. -/
def validFTrace : FileLRU → List FOp → Bool
  | _, [] => true
  | d, op :: rest => FOpValidIn d op && validFTrace (FOp.apply d op) rest

/-! ## EventMerger (src/src/simulator/events.py)

The N-way merge used by OfflineCacheSystem. The heapq heap holds tuples
(timestamp key, running insertion index, event, iterator); the insertion
index is unique, so tuple comparison is the total lexicographic order on
(key, index) and popping returns exactly the minimum. The heap is embedded
as a list with minimum extraction. -/

/-- One heap entry: key timestamp, insertion index, the event and the rest
of its stream. -/
structure MEntry (α : Type) where
  ts : Nat
  idx : Nat
  ev : α
  rest : List α
  deriving Repr

/-- heapq comparison on entries: lexicographic on (ts, idx); idx is unique
so the event and iterator components are never compared. -/
def entryLE {α : Type} (a b : MEntry α) : Bool :=
  a.ts < b.ts || (a.ts = b.ts && a.idx ≤ b.idx)

/-- Extract the minimal entry (heapq heappop). -/
def popMin {α : Type} : List (MEntry α) → Option (MEntry α × List (MEntry α))
  | [] => none
  | e :: rest =>
    match popMin rest with
    | none => some (e, [])
    | some m => if entryLE e m.1 then some (e, rest) else some (m.1, e :: m.2)

/-- EventMerger._push_next for one stream during construction: an empty
stream is skipped, otherwise its head is pushed with the next insertion
index. -/
def pushStream {α : Type} (key : α → Nat) (hc : List (MEntry α) × Nat)
    (s : List α) : List (MEntry α) × Nat :=
  match s with
  | [] => hc
  | x :: r => (hc.1 ++ [⟨key x, hc.2, x, r⟩], hc.2 + 1)

/-- EventMerger.__init__: push the head of every stream. -/
def initMerge {α : Type} (key : α → Nat) (streams : List (List α)) :
    List (MEntry α) × Nat :=
  streams.foldl (pushStream key) ([], 0)

/-- Total number of events still held by a heap. -/
def heapSize {α : Type} (h : List (MEntry α)) : Nat :=
  (h.map (fun e => 1 + e.rest.length)).sum

/-- EventMerger.__next__ iterated to exhaustion, emitting the popped
entries: pop the minimum and replace it by the successor from the same
stream (heapreplace), which receives the next insertion index. The fuel
equals the number of remaining events when called from mergeEntries, which
is exactly the number of iterations of the source loop. -/
def mergeRunFuel {α : Type} (key : α → Nat) :
    Nat → List (MEntry α) → Nat → List (MEntry α)
  | 0, _, _ => []
  | fuel + 1, h, c =>
    match popMin h with
    | none => []
    | some eh =>
      match eh.1.rest with
      | [] => eh.1 :: mergeRunFuel key fuel eh.2 c
      | x :: r => eh.1 :: mergeRunFuel key fuel (eh.2 ++ [⟨key x, c, x, r⟩]) (c + 1)

/-- The merged stream of entries. -/
def mergeEntries {α : Type} (key : α → Nat) (streams : List (List α)) :
    List (MEntry α) :=
  let hc := initMerge key streams
  mergeRunFuel key (heapSize hc.1) hc.1 hc.2

/-- EventMerger as an event stream: the merged events. -/
def mergeEvents {α : Type} (key : α → Nat) (streams : List (List α)) : List α :=
  (mergeEntries key streams).map (·.ev)

/-- Strict lexicographic order on (ts, idx) pairs. -/
def lexLT (a b : Nat × Nat) : Prop := a.1 < b.1 ∨ (a.1 = b.1 ∧ a.2 < b.2)

/-- The (ts, idx) key of a heap entry. -/
def entryKey {α : Type} (e : MEntry α) : Nat × Nat := (e.ts, e.idx)

/-- The timestamp key on AccessInfo used by OfflineCacheSystem
(AccessInfo.key / lambda access_info: access_info.access.access_ts). -/
def AccessInfo.keyTs (i : AccessInfo) : Nat := i.access.access_ts

/-! ## Stats collection (src/src/simulator/cache/stats.py and
src/src/simulator/workload/stats.py)

The per-file statistics combine the workload-level counters (accesses,
total/unique bytes, per-part stats) with the cache-level counters (hits,
misses, byte counters, residency timestamps). -/

/-- workload stats PartStats. -/
structure PartStats where
  ind : Nat
  accesses : Nat
  total_bytes_accessed : Nat
  unique_bytes_accessed : Nat
  deriving Repr, DecidableEq

/-- A fresh PartStats. -/
def newPartStats (ind : Nat) : PartStats := ⟨ind, 0, 0, 0⟩

/-- cache FileStats: the workload FileStats fields plus the cache
counters. -/
structure CFileStats where
  id : Nat
  accesses : Nat
  total_bytes_accessed : Nat
  unique_bytes_accessed : Nat
  parts : List PartStats
  hits : Nat
  misses : Nat
  bytes_hit : Nat
  bytes_missed : Nat
  bytes_added : Nat
  bytes_removed_due : Nat
  last_residency_begin : Nat
  last_residency_end : Nat
  deriving Repr, DecidableEq

/-- A fresh cache FileStats. -/
def newCFileStats (id : Nat) : CFileStats := ⟨id, 0, 0, 0, [], 0, 0, 0, 0, 0, 0, 0, 0⟩

/-- cache TotalStats (with the workload TotalStats fields). -/
structure CTotalStats where
  accesses : Nat
  total_bytes_accessed : Nat
  unique_bytes_accessed : Nat
  files_hit : Nat
  files_missed : Nat
  bytes_hit : Nat
  bytes_missed : Nat
  bytes_added : Nat
  bytes_removed : Nat
  deriving Repr, DecidableEq

/-- cache StatsCounters: per-file stats map and total stats. -/
structure SCounters where
  files : List (Nat × CFileStats)
  total : CTotalStats
  deriving Repr, DecidableEq

/-- The zero counters, also the result of StatsCounters.reset(). -/
def zeroCounters : SCounters := ⟨[], ⟨0, 0, 0, 0, 0, 0, 0, 0, 0⟩⟩

/-- Extend the positional parts list up to a given part index with fresh
PartStats (the IndexError branch of workload process_access). -/
def extendParts (parts : List PartStats) (ind : Nat) : List PartStats :=
  if ind < parts.length then parts
  else parts ++ (List.range (ind + 1 - parts.length)).map
    (fun i => newPartStats (parts.length + i))

/-- One part of workload StatsCounters.process_access: update the part
stats and return the running total-bytes and unique-bytes increments. -/
def wPartStep (acc : List PartStats × Nat × Nat) (pr : Nat × Nat) :
    List PartStats × Nat × Nat :=
  let parts := extendParts acc.1 pr.1
  let p := parts.getD pr.1 (newPartStats 0)
  let diff := if pr.2 > p.unique_bytes_accessed
    then pr.2 - p.unique_bytes_accessed else 0
  let p' : PartStats := ⟨p.ind, p.accesses + 1, p.total_bytes_accessed + pr.2,
    p.unique_bytes_accessed + diff⟩
  (parts.set pr.1 p', acc.2.1 + pr.2, acc.2.2 + diff)

/-- workload StatsCounters.process_access. -/
def statsProcessAccess (c : SCounters) (access : Access) : SCounters :=
  let fs0 := (alookup c.files access.file).getD (newCFileStats access.file)
  let res := access.parts.foldl wPartStep (fs0.parts, 0, 0)
  let fs1 : CFileStats := { fs0 with
    accesses := fs0.accesses + 1,
    total_bytes_accessed := fs0.total_bytes_accessed + res.2.1,
    unique_bytes_accessed := fs0.unique_bytes_accessed + res.2.2,
    parts := res.1 }
  { c with
    files := aset c.files access.file fs1,
    total := { c.total with
      accesses := c.total.accesses + 1,
      total_bytes_accessed := c.total.total_bytes_accessed + res.2.1,
      unique_bytes_accessed := c.total.unique_bytes_accessed + res.2.2 } }

/-- Modelled from the spec: the AccessInfo revision used by stats.py
carries a hit_parts field (the per-part hit decomposition whose sizes sum
to bytes_hit); that revision of processor.py is missing from the
repository snapshot, so hit_parts is modelled as the per-part
min(stored size before the access, requested size). -/
structure AccessInfoF where
  access : Access
  hit_parts : List (Nat × Nat)
  file_hit : Bool
  bytes_hit : Nat
  bytes_missed : Nat
  bytes_added : Nat
  bytes_removed : Nat
  total_bytes : Nat
  evicted_files : List Nat
  deriving Repr, DecidableEq

/-- Modelled from the spec: attach hit_parts to a processor AccessInfo,
computed against the storage as it was before the access. -/
def toInfoF (storageBefore : Storage) (i : AccessInfo) : AccessInfoF :=
  let fp := (alookup storageBefore.files i.access.file).getD []
  ⟨i.access, i.access.parts.map (fun p => (p.1, min (partGet fp p.1) p.2)),
   i.file_hit, i.bytes_hit, i.bytes_missed, i.bytes_added, i.bytes_removed,
   i.total_bytes, i.evicted_files⟩

/-- cache StatsCounters.process_access_info. -/
def statsProcessInfo (c : SCounters) (i : AccessInfoF) : SCounters :=
  let fs0 := (alookup c.files i.access.file).getD (newCFileStats i.access.file)
  let fs1 := { fs0 with
    bytes_hit := fs0.bytes_hit + i.bytes_hit,
    bytes_missed := fs0.bytes_missed + i.bytes_missed,
    bytes_added := fs0.bytes_added + i.bytes_added,
    bytes_removed_due := fs0.bytes_removed_due + i.bytes_removed }
  let fs2 := if i.file_hit then { fs1 with hits := fs1.hits + 1 }
    else { fs1 with misses := fs1.misses + 1,
                    last_residency_begin := i.access.access_ts }
  let tot1 := if i.file_hit then { c.total with files_hit := c.total.files_hit + 1 }
    else { c.total with files_missed := c.total.files_missed + 1 }
  let tot2 := { tot1 with
    bytes_hit := tot1.bytes_hit + i.bytes_hit,
    bytes_missed := tot1.bytes_missed + i.bytes_missed,
    bytes_added := tot1.bytes_added + i.bytes_added,
    bytes_removed := tot1.bytes_removed + i.bytes_removed }
  let files1 := aset c.files i.access.file fs2
  let files2 := i.evicted_files.foldl (fun fl f =>
    match alookup fl f with
    | none => fl
    | some fs => aset fl f { fs with last_residency_end := i.access.access_ts })
    files1
  ⟨files2, tot2⟩

/-- The marked files of MissOnFirstReaccessFilter: file id to part index
to (marked missing bytes, max size seen). -/
abbrev Marked := List (Nat × List (Nat × (Nat × Nat)))

/-- MissOnFirstReaccessFilter._build_marked_files: mark every file whose
last residency did not end after it began, with each part's unique
accessed bytes. -/
def buildMarked (c : SCounters) : Marked :=
  (c.files.filter (fun p => p.2.last_residency_end ≤ p.2.last_residency_begin)).map
    (fun p => (p.1, p.2.parts.map (fun ps => (ps.ind, (ps.unique_bytes_accessed, 0)))))

/-- MissOnFirstReaccessFilter.__call__: re-attribute marked warm bytes of
the first re-access as misses and update the marked map. -/
def filterCall (m : Marked) (i : AccessInfoF) : Marked × AccessInfoF :=
  match alookup m i.access.file with
  | none => (m, i)
  | some file_info =>
    let hit_parts := i.hit_parts.map (fun ph =>
      match alookup file_info ph.1 with
      | some ms => (ph.1, ph.2 - min ph.2 ms.1 + min ph.2 ms.2)
      | none => ph)
    let fi' := i.access.parts.foldl (fun fi pr =>
      match alookup fi pr.1 with
      | none => fi
      | some ms =>
        if pr.2 ≥ ms.1 then aremove fi pr.1
        else if pr.2 > ms.2 then aset fi pr.1 (ms.1, pr.2)
        else fi) file_info
    let m1 := if i.file_hit then
        (if fi' = [] then aremove m i.access.file else aset m i.access.file fi')
      else aremove m i.access.file
    let m2 := i.evicted_files.foldl (fun mm f => aremove mm f) m1
    let requested := i.bytes_hit + i.bytes_missed
    let bytes_hit := (hit_parts.map (·.2)).sum
    let bytes_missed := requested - bytes_hit
    let bytes_added := i.bytes_added + i.bytes_hit - bytes_hit
    let rem := if i.file_hit then fi' else file_info
    let total_bytes := max requested
      (i.total_bytes - (rem.map (fun ms => ms.2.1 - ms.2.2)).sum)
    let previous_total := total_bytes - bytes_added
    (m2, ⟨i.access, hit_parts, i.file_hit && decide (0 < previous_total),
      bytes_hit, bytes_missed, bytes_added, i.bytes_removed, total_bytes,
      i.evicted_files⟩)

/-- One iteration of StatsCollector.__iter__: feed the raw access to the
workload counters, apply the filter when installed (dropping it once
empty), then feed the filtered info to the cache counters. -/
def collectorStep (st : SCounters × Option Marked) (i : AccessInfoF) :
    (SCounters × Option Marked) × AccessInfoF :=
  let c1 := statsProcessAccess st.1 i.access
  match st.2 with
  | none => ((statsProcessInfo c1 i, none), i)
  | some m =>
    let r := filterCall m i
    let filt' := if r.1.length = 0 then none else some r.1
    ((statsProcessInfo c1 r.2, filt'), r.2)

/-- StatsCollector.reset: raises when a filter is already installed
(leaving the state unchanged), otherwise builds the filter from the
current counters and then resets them. -/
def collectorReset (st : SCounters × Option Marked) : SCounters × Option Marked :=
  match st.2 with
  | some _ => st
  | none => (zeroCounters, some (buildMarked st.1))

/-- Drive one access through an LRU processor, producing the filter-level
AccessInfo with hit_parts computed against the pre-access storage. -/
def driveOne (st : Storage × List Nat × Nat) (a : Access) :
    Option ((Storage × List Nat × Nat) × AccessInfoF) :=
  match processOneAccess lruPolicy 10 st.1 st.2.1 st.2.2 a with
  | none => none
  | some r => some ((r.2.1, r.2.2, st.2.2 + 1), toInfoF st.1 r.1)

/-- The C7 scenario: capacity-10 LRU cache, accesses (1, a, 1 byte) and
(2, a, 1 byte), then reset, then (3, a, 1 byte); the result is the
filtered AccessInfo reported for the third access. -/
def c7run : Option AccessInfoF :=
  match driveOne (Storage.mk0 10, [], 0) ⟨1, 0, [(0, 1)]⟩ with
  | none => none
  | some r1 =>
    let cs1 := collectorStep (zeroCounters, none) r1.2
    match driveOne r1.1 ⟨2, 0, [(0, 1)]⟩ with
    | none => none
    | some r2 =>
      let cs2 := collectorStep cs1.1 r2.2
      let cs3 := collectorReset cs2.1
      match driveOne r2.1 ⟨3, 0, [(0, 1)]⟩ with
      | none => none
      | some r3 => some (collectorStep cs3 r3.2).2

/-! ## Landlord (src/src/simulator/cache/algorithms/landlord.py)

Credits are Python floats; every value arising in the theorems below is
produced by additions, max, and division of a number by itself, all exact
in float arithmetic on these inputs, so credits are embedded as Rat.

The keyed priority queue is the external apq package, absent from the
repository, and is modelled from the spec (section 4.3: a min-heap with
lookup by key and change_value). Two tie disciplines are modelled:
stable = false keeps a re-valued entry in place (as a binary heap sift
does when the value is unchanged), stable = true moves every updated
entry behind all entries of equal value (most-recently-updated-last).
Pop returns the earliest entry of minimal value. -/

/-- One Landlord queue entry: file id, running volume credit, and the
_FileInfo data (size and access_rent_threshold). -/
structure LLEntry where
  file : Nat
  value : ℚ
  size : Nat
  accThr : ℚ
  deriving Repr, DecidableEq

/-- Landlord.State: the queue entries and the running rent threshold. -/
structure LLState where
  entries : List LLEntry
  rent_threshold : ℚ
  deriving Repr, DecidableEq

/-- The Landlord mode. -/
inductive LLMode where
  | TOTAL_SIZE
  | ACCESS_SIZE
  | FETCH_SIZE
  | ADD_FETCH_SIZE
  | NO_COST
  deriving Repr, DecidableEq

/-- Landlord.State._credit. -/
def llCredit (mode : LLMode) (requested placed total : Nat) (current : ℚ) : ℚ :=
  match mode with
  | LLMode.TOTAL_SIZE => (total : ℚ)
  | LLMode.ACCESS_SIZE => max current (requested : ℚ)
  | LLMode.FETCH_SIZE => max current (placed : ℚ)
  | LLMode.ADD_FETCH_SIZE => current + (placed : ℚ)
  | LLMode.NO_COST => if current = 0 then (total : ℚ) else current

/-- Look up the entry of a file in the queue (pq lookup by key). -/
def findEntry? : List LLEntry → Nat → Option LLEntry
  | [], _ => none
  | e :: rest, f => if e.file = f then some e else findEntry? rest f

/-- Remove the entry of a file (first match) from the queue. -/
def removeEntryKey : List LLEntry → Nat → List LLEntry
  | [], _ => []
  | e :: rest, f => if e.file = f then rest else e :: removeEntryKey rest f

/-- Replace the entry of a file (first match) in place. -/
def setEntryKey : List LLEntry → Nat → LLEntry → List LLEntry
  | [], _, _ => []
  | e :: rest, f, e' => if e.file = f then e' :: rest else e :: setEntryKey rest f e'

/-- Modelled from the spec: extract the earliest entry of minimal value
(min-heap pop). -/
def popMinEntry : List LLEntry → Option (LLEntry × List LLEntry)
  | [] => none
  | e :: rest =>
    match popMinEntry rest with
    | none => some (e, [])
    | some m => if e.value ≤ m.1.value then some (e, rest) else some (m.1, e :: m.2)

/-- Landlord.State.pop_eviction_candidates: pop the minimum, record its
running volume credit as the new rent threshold, return its file. -/
def llPop (st : LLState) : Option (List Nat × LLState) :=
  match popMinEntry st.entries with
  | none => none
  | some m => some ([m.1.file], ⟨m.2, m.1.value⟩)

/-- Landlord.State.process_access: compute the current credit, the new
credit per mode, and store credit / total_bytes + rent_threshold together
with the file's total cached size. A fresh entry is appended behind all
existing entries (the heap insertion, no sift needed as its value is
maximal in the runs considered); an existing entry is updated in place
(stable = false) or moved to the back (stable = true). -/
def llProcAcc (stable : Bool) (mode : LLMode) (st : LLState) (file : Nat)
    (info : AccessInfo) : LLState :=
  let cur := findEntry? st.entries file
  let current_credit : ℚ := match cur with
    | some e => (e.value - st.rent_threshold) * (e.size : ℚ)
    | none => 0
  let total_bytes := info.total_bytes
  let credit := llCredit mode info.bytes_requested info.bytes_added total_bytes
    current_credit
  let rvc := credit / (total_bytes : ℚ) + st.rent_threshold
  let e' : LLEntry := ⟨file, rvc, total_bytes, st.rent_threshold⟩
  let entries' := match cur with
    | none => st.entries ++ [e']
    | some _ => if stable then (removeEntryKey st.entries file) ++ [e']
      else setEntryKey st.entries file e'
  ⟨entries', st.rent_threshold⟩

/-- The Landlord policy for the state-driven processor. -/
def llPolicy (stable : Bool) (mode : LLMode) : Policy LLState where
  popCandidates := fun st _ => llPop st
  procAcc := fun st f _ _ info => some (llProcAcc stable mode st f info)

/-- Run a processor over a list of accesses, collecting the emitted
AccessInfos; none embeds any raised exception. -/
def runProc {σ : Type} (pol : Policy σ) (fuel : Nat) :
    Storage → σ → Nat → List Access → Option (List AccessInfo)
  | _, _, _, [] => some []
  | s, st, ind, a :: rest =>
    match processOneAccess pol fuel s st ind a with
    | none => none
    | some r => (runProc pol fuel r.2.1 r.2.2 (ind + 1) rest).map (fun l => r.1 :: l)

/-- The C8 counterexample trace: uniform one-byte files a=0, b=1, c=2
accessed as a, b, a, c on a two-byte cache. -/
def c8trace : List Access :=
  [⟨1, 0, [(0, 1)]⟩, ⟨2, 1, [(0, 1)]⟩, ⟨3, 0, [(0, 1)]⟩, ⟨4, 2, [(0, 1)]⟩]

/-- The coupling invariant between a Landlord TOTAL_SIZE state and an LRU
state over a storage holding whole files of uniform size s: the queue in
update order mirrors the LRU order (most recent last vs most recent
first), queue values are non-decreasing and lie between the rent
threshold and rent threshold + 1, and both track exactly the cached
files. -/
def LLInv (s : Nat) (storage : Storage) (stL : LLState) (lru : List Nat) : Prop :=
  stL.entries.map LLEntry.file = lru.reverse
  ∧ lru.Nodup
  ∧ (storage.files.map Prod.fst).Nodup
  ∧ (∀ f, (alookup storage.files f).isSome ↔ f ∈ lru)
  ∧ (∀ p ∈ storage.files, p.2 = [(0, s)])
  ∧ List.Chain' (· ≤ ·) (stL.entries.map LLEntry.value)
  ∧ (∀ e ∈ stL.entries, stL.rent_threshold ≤ e.value
      ∧ e.value ≤ 1 + stL.rent_threshold)

/-! ## Theorems -/

theorem alookup_aset_self {α : Type} (l : List (Nat × α)) (k : Nat) (v : α) :
    alookup (aset l k v) k = some v := by
  induction l with
  | nil => simp [aset, alookup]
  | cons hd tl ih =>
    obtain ⟨k', v'⟩ := hd
    by_cases h : k' = k
    · simp [aset, h, alookup]
    · simp [aset, h, alookup, ih]

theorem alookup_aset_ne {α : Type} (l : List (Nat × α)) (k j : Nat) (v : α)
    (hne : k ≠ j) : alookup (aset l k v) j = alookup l j := by
  induction l with
  | nil => simp [aset, alookup, hne]
  | cons hd tl ih =>
    obtain ⟨k', v'⟩ := hd
    by_cases h : k' = k
    · subst h
      simp [aset, alookup, hne]
    · by_cases h' : k' = j <;> simp [aset, h, alookup, h', ih, Ne.symm hne]

theorem alookup_aremove_ne {α : Type} (l : List (Nat × α)) (k j : Nat)
    (hne : k ≠ j) : alookup (aremove l k) j = alookup l j := by
  induction l with
  | nil => simp [aremove]
  | cons hd tl ih =>
    obtain ⟨k', v'⟩ := hd
    by_cases h : k' = k
    · subst h
      simp [aremove, alookup, hne]
    · by_cases h' : k' = j <;> simp [aremove, h, alookup, h', ih, Ne.symm hne]

theorem partGet_aset (fp : FileParts) (i j v : Nat) :
    partGet (aset fp i v) j = if j = i then v else partGet fp j := by
  by_cases h : j = i
  · subst h
    simp [partGet, alookup_aset_self]
  · simp [partGet, alookup_aset_ne fp i j v (Ne.symm h), h]

theorem partsSum_aset (fp : FileParts) (i v : Nat) :
    partsSum (aset fp i v) + partGet fp i = partsSum fp + v := by
  induction fp with
  | nil => simp [aset, partsSum, partGet, alookup]
  | cons hd tl ih =>
    obtain ⟨k', v'⟩ := hd
    by_cases h : k' = i
    · subst h
      simp [aset, partsSum, partGet, alookup]
      omega
    · simp only [aset, if_neg h, partsSum, List.map_cons, List.sum_cons,
        partGet, alookup, if_neg h]
      have := ih
      simp only [partsSum, partGet] at this
      omega

theorem partsSum_aremove (fp : FileParts) (i : Nat) :
    partsSum (aremove fp i) + partGet fp i = partsSum fp := by
  induction fp with
  | nil => simp [aremove, partsSum, partGet, alookup]
  | cons hd tl ih =>
    obtain ⟨k', v'⟩ := hd
    by_cases h : k' = i
    · subst h
      simp [aremove, partsSum, partGet, alookup]
      omega
    · simp only [aremove, if_neg h, partsSum, List.map_cons, List.sum_cons,
        partGet, alookup, if_neg h]
      have := ih
      simp only [partsSum, partGet] at this
      omega

theorem filesSum_aset (files : List (Nat × FileParts)) (f : Nat) (fp' : FileParts) :
    filesSum (aset files f fp') + partsSum ((alookup files f).getD []) =
      filesSum files + partsSum fp' := by
  induction files with
  | nil => simp [aset, filesSum, alookup, partsSum]
  | cons hd tl ih =>
    obtain ⟨g, gp⟩ := hd
    by_cases h : g = f
    · subst h
      simp [aset, filesSum, alookup]
      omega
    · simp only [aset, if_neg h, filesSum, List.map_cons, List.sum_cons,
        alookup, if_neg h]
      have := ih
      simp only [filesSum] at this
      omega

theorem filesSum_aremove (files : List (Nat × FileParts)) (f : Nat) :
    filesSum (aremove files f) + partsSum ((alookup files f).getD []) =
      filesSum files := by
  induction files with
  | nil => simp [aremove, filesSum, alookup, partsSum]
  | cons hd tl ih =>
    obtain ⟨g, gp⟩ := hd
    by_cases h : g = f
    · subst h
      simp [aremove, filesSum, alookup]
      omega
    · simp only [aremove, if_neg h, filesSum, List.map_cons, List.sum_cons,
        alookup, if_neg h]
      have := ih
      simp only [filesSum] at this
      omega

theorem containedBytes_le_requested (s : Storage) (f : Nat)
    (parts : List (Nat × Nat)) : s.containedBytes f parts ≤ requestedBytes parts := by
  unfold Storage.containedBytes requestedBytes
  cases alookup s.files f with
  | none => exact Nat.zero_le _
  | some fp =>
    simp only []
    induction parts with
    | nil => simp
    | cons hd tl ih =>
      simp only [List.map_cons, List.sum_cons]
      exact Nat.add_le_add (Nat.min_le_right _ _) ih

theorem partGet_placeStep_ne (cur : FileParts) (p : Nat × Nat) (j : Nat)
    (h : j ≠ p.1) : partGet (placeStep cur p) j = partGet cur j := by
  simp [placeStep, partGet_aset, h]

theorem partGet_foldl_placeStep (ps : List (Nat × Nat)) (fp : FileParts) (ind : Nat) :
    partGet (ps.foldl placeStep fp) ind = max (partGet fp ind) (partsMax ps ind) := by
  induction ps generalizing fp with
  | nil => simp [partsMax]
  | cons hd tl ih =>
    obtain ⟨i, b⟩ := hd
    simp only [List.foldl_cons, ih, partsMax]
    by_cases h : i = ind
    · subst h
      simp [placeStep, partGet_aset]
      omega
    · rw [partGet_placeStep_ne _ _ _ (Ne.symm h), if_neg h]

theorem partsSum_foldl_placeStep (ps : List (Nat × Nat)) (fp : FileParts)
    (hnd : (ps.map Prod.fst).Nodup) :
    partsSum (ps.foldl placeStep fp) +
      (ps.map (fun p => min (partGet fp p.1) p.2)).sum =
      partsSum fp + requestedBytes ps := by
  induction ps generalizing fp with
  | nil => simp [requestedBytes]
  | cons hd tl ih =>
    obtain ⟨i, b⟩ := hd
    simp only [List.map_cons, List.nodup_cons] at hnd
    obtain ⟨hni, hnd⟩ := hnd
    have hmaps : tl.map (fun p => min (partGet (placeStep fp (i, b)) p.1) p.2) =
        tl.map (fun p => min (partGet fp p.1) p.2) := by
      apply List.map_congr_left
      intro p hp
      have : p.1 ≠ i := by
        intro he
        exact hni (he ▸ List.mem_map_of_mem Prod.fst hp)
      rw [partGet_placeStep_ne _ _ _ this]
    have hsum : partsSum (placeStep fp (i, b)) + min (partGet fp i) b =
        partsSum fp + b := by
      have h1 := partsSum_aset fp i (max (partGet fp i) b)
      simp only [placeStep]
      omega
    have ihh := ih (placeStep fp (i, b)) hnd
    simp only [List.foldl_cons, List.map_cons, List.sum_cons, requestedBytes] at *
    rw [hmaps] at ihh
    omega

theorem containedBytes_eq_sum (s : Storage) (f : Nat) (parts : List (Nat × Nat)) :
    s.containedBytes f parts =
      (parts.map (fun p => min (partGet ((alookup s.files f).getD []) p.1) p.2)).sum := by
  unfold Storage.containedBytes
  cases alookup s.files f with
  | none => simp [partGet, alookup]
  | some fp => simp

theorem sum_min_le_requested (fp0 : FileParts) (parts : List (Nat × Nat)) :
    (parts.map (fun p => min (partGet fp0 p.1) p.2)).sum ≤ requestedBytes parts := by
  unfold requestedBytes
  induction parts with
  | nil => simp
  | cons hd tl ih =>
    simp only [List.map_cons, List.sum_cons]
    exact Nat.add_le_add (Nat.min_le_right _ _) ih

theorem StorageInv_placeSt (s : Storage) (f : Nat) (parts : List (Nat × Nat))
    (h : StorageInv s) (hnd : (parts.map Prod.fst).Nodup) :
    StorageInv (s.placeSt f parts).1 := by
  obtain ⟨hsum, hle⟩ := h
  unfold Storage.placeSt
  by_cases hc : s.free_bytes < (s.missingBytes f parts : Int)
  · simp only [if_pos hc]
    exact ⟨hsum, hle⟩
  · simp only [if_neg hc]
    have hset := filesSum_aset s.files f
      (parts.foldl placeStep ((alookup s.files f).getD []))
    have hfold := partsSum_foldl_placeStep parts ((alookup s.files f).getD []) hnd
    have hcont := containedBytes_eq_sum s f parts
    have hcle := containedBytes_le_requested s f parts
    have hmiss : s.missingBytes f parts =
        requestedBytes parts - s.containedBytes f parts := rfl
    have hfree : ¬ ((s.total_bytes : Int) - s.used_bytes <
        (s.missingBytes f parts : Int)) := hc
    constructor
    · show s.used_bytes + (s.missingBytes f parts : Int) =
        (filesSum (aset s.files f
          (parts.foldl placeStep ((alookup s.files f).getD []))) : Int)
      rw [hsum]
      rw [← hcont] at hfold
      omega
    · show s.used_bytes + (s.missingBytes f parts : Int) ≤ (s.total_bytes : Int)
      omega

theorem StorageInv_evictFile (s : Storage) (f : Nat) (h : StorageInv s) :
    StorageInv (s.evictFile f).1 := by
  obtain ⟨hsum, hle⟩ := h
  unfold Storage.evictFile
  cases hlk : alookup s.files f with
  | none => exact ⟨hsum, hle⟩
  | some fp =>
    have hrem := filesSum_aremove s.files f
    rw [hlk] at hrem
    simp only [Option.getD_some] at hrem
    constructor
    · show s.used_bytes - (partsSum fp : Int) = (filesSum (aremove s.files f) : Int)
      rw [hsum]
      omega
    · show s.used_bytes - (partsSum fp : Int) ≤ (s.total_bytes : Int)
      omega

theorem partGet_of_alookup (fp : FileParts) (ind sz : Nat)
    (h : alookup fp ind = some sz) : partGet fp ind = sz := by
  simp [partGet, h]

theorem evictPartsGo_sum (full : Bool) (r : Nat → Nat) (hr : ∀ n, r n ≤ n)
    (fp : FileParts) (cl : List Nat) :
    partsSum (evictPartsGo full r fp cl).1 + (evictPartsGo full r fp cl).2 =
      partsSum fp := by
  induction cl generalizing fp with
  | nil => simp [evictPartsGo]
  | cons ind rest ih =>
    unfold evictPartsGo
    cases hlk : alookup fp ind with
    | none => exact ih fp
    | some sz =>
      have hget : partGet fp ind = sz := partGet_of_alookup fp ind sz hlk
      cases full with
      | true =>
        show partsSum (evictPartsGo true r (aremove fp ind) rest).1 +
          (sz + (evictPartsGo true r (aremove fp ind) rest).2) = partsSum fp
        have hrm := partsSum_aremove fp ind
        have hih := ih (aremove fp ind)
        omega
      | false =>
        show partsSum (evictPartsGo false r
            (if sz - r sz = 0 then aremove fp ind else aset fp ind (sz - r sz))
            rest).1 +
          (r sz + (evictPartsGo false r
            (if sz - r sz = 0 then aremove fp ind else aset fp ind (sz - r sz))
            rest).2) = partsSum fp
        by_cases hrem : sz - r sz = 0
        · simp only [if_pos hrem]
          have hrm := partsSum_aremove fp ind
          have hih := ih (aremove fp ind)
          have hr' := hr sz
          omega
        · simp only [if_neg hrem]
          have hst := partsSum_aset fp ind (sz - r sz)
          have hih := ih (aset fp ind (sz - r sz))
          have hr' := hr sz
          omega

theorem StorageInv_evictPart_core (s : Storage) (f : Nat) (fp : FileParts)
    (full : Bool) (r : Nat → Nat) (cl : List Nat) (hr : ∀ n, r n ≤ n)
    (hlk : alookup s.files f = some fp)
    (hsum : s.used_bytes = (filesSum s.files : Int))
    (hle : s.used_bytes ≤ (s.total_bytes : Int)) :
    StorageInv ⟨s.total_bytes, s.used_bytes - ((evictPartsGo full r fp cl).2 : Int),
      if (evictPartsGo full r fp cl).1 = [] then aremove s.files f
      else aset s.files f (evictPartsGo full r fp cl).1⟩ := by
  have hgo := evictPartsGo_sum full r hr fp cl
  have hfiles : filesSum (if (evictPartsGo full r fp cl).1 = [] then aremove s.files f
      else aset s.files f (evictPartsGo full r fp cl).1) +
      (evictPartsGo full r fp cl).2 = filesSum s.files := by
    by_cases hnil : (evictPartsGo full r fp cl).1 = []
    · rw [if_pos hnil]
      have hrm := filesSum_aremove s.files f
      rw [hlk] at hrm
      simp only [Option.getD_some] at hrm
      rw [hnil] at hgo
      have h0 : partsSum ([] : FileParts) = 0 := rfl
      rw [h0] at hgo
      omega
    · rw [if_neg hnil]
      have hst := filesSum_aset s.files f (evictPartsGo full r fp cl).1
      rw [hlk] at hst
      simp only [Option.getD_some] at hst
      omega
  constructor
  · show s.used_bytes - ((evictPartsGo full r fp cl).2 : Int) =
      (filesSum (if (evictPartsGo full r fp cl).1 = [] then aremove s.files f
        else aset s.files f (evictPartsGo full r fp cl).1) : Int)
    rw [hsum]
    omega
  · show s.used_bytes - ((evictPartsGo full r fp cl).2 : Int) ≤ (s.total_bytes : Int)
    omega

theorem StorageInv_evictPart (s : Storage) (f : Nat) (full : Bool)
    (r : Nat → Nat) (cands : Option (List Nat)) (hr : ∀ n, r n ≤ n)
    (h : StorageInv s) : StorageInv (s.evictPart f full r cands).1 := by
  obtain ⟨hsum, hle⟩ := h
  unfold Storage.evictPart
  cases hlk : alookup s.files f with
  | none => exact ⟨hsum, hle⟩
  | some fp =>
    cases cands with
    | none =>
      exact StorageInv_evictPart_core s f fp full r (fp.map (·.1)) hr hlk hsum hle
    | some ps =>
      exact StorageInv_evictPart_core s f fp full r ps hr hlk hsum hle

theorem StorageInv_apply (s : Storage) (op : SOp) (h : StorageInv s)
    (hv : op.Valid) : StorageInv (SOp.apply s op) := by
  cases op with
  | place f parts => exact StorageInv_placeSt s f parts h hv
  | evict f => exact StorageInv_evictFile s f h
  | evictPart f full r cands => exact StorageInv_evictPart s f full r cands hv h

/-- Claim C3: Storage.place raises InsufficientFreeSpace iff
missing_bytes exceeds free_bytes; the failing call leaves the storage
unchanged (the exception is raised before any mutation); a successful call
stores for every part index the element-wise max of the existing and the
requested sizes, leaves other files untouched, adds missing_bytes to the
used-bytes counter and returns the value missing_bytes had before the
call. -/
theorem C3_place_semantics (s : Storage) (f : Nat) (parts : List (Nat × Nat)) :
    ((s.placeSt f parts).2 = none ↔ s.free_bytes < (s.missingBytes f parts : Int))
    ∧ ((s.placeSt f parts).2 = none → (s.placeSt f parts).1 = s)
    ∧ (∀ s' ret, s.placeSt f parts = (s', some ret) →
        ret = s.missingBytes f parts
        ∧ s'.used_bytes = s.used_bytes + (s.missingBytes f parts : Int)
        ∧ (∀ ind, partGet ((alookup s'.files f).getD []) ind =
            max (partGet ((alookup s.files f).getD []) ind) (partsMax parts ind))
        ∧ (∀ g, g ≠ f → alookup s'.files g = alookup s.files g)
        ∧ s'.total_bytes = s.total_bytes) := by
  unfold Storage.placeSt
  by_cases hc : s.free_bytes < (s.missingBytes f parts : Int)
  · simp only [if_pos hc]
    refine ⟨by simp [hc], fun _ => trivial, fun s' ret heq => ?_⟩
    exact absurd (congrArg Prod.snd heq) (by simp)
  · simp only [if_neg hc]
    refine ⟨by simp [hc], by simp, fun s' ret heq => ?_⟩
    have hs' : s' = { s with
        files := aset s.files f (parts.foldl placeStep ((alookup s.files f).getD [])),
        used_bytes := s.used_bytes + (s.missingBytes f parts : Int) } := by
      have := congrArg Prod.fst heq
      simp at this
      exact this.symm
    have hret : ret = s.missingBytes f parts := by
      have := congrArg Prod.snd heq
      simp at this
      exact this.symm
    subst hs'
    refine ⟨hret, rfl, ?_, ?_, rfl⟩
    · intro ind
      simp only [alookup_aset_self, Option.getD_some]
      exact partGet_foldl_placeStep parts _ ind
    · intro g hg
      exact alookup_aset_ne s.files f g _ (Ne.symm hg)

/-- Witness for C3: a concrete successful place call on a storage already
holding two bytes of part 0 of file 7. -/
theorem C3_place_semantics_witness :
    (3 : Nat) = (Storage.mk 10 2 [(7, [(0, 2)])]).missingBytes 7 [(0, 3), (1, 2)]
    ∧ (∀ ind, partGet ((alookup (Storage.mk 10 5
        [(7, [(0, 3), (1, 2)])]).files 7).getD []) ind =
        max (partGet ((alookup (Storage.mk 10 2 [(7, [(0, 2)])]).files 7).getD []) ind)
          (partsMax [(0, 3), (1, 2)] ind)) := by
  have h := (C3_place_semantics (Storage.mk 10 2 [(7, [(0, 2)])]) 7
    [(0, 3), (1, 2)]).2.2 (Storage.mk 10 5 [(7, [(0, 3), (1, 2)])]) 3 (by decide)
  exact ⟨h.1, h.2.2.1⟩

/-- Claim C4 as stated is refuted by a place call whose parts sequence
names part index 0 twice: used_bytes is incremented by missing_bytes = 2
while only 1 byte is stored, so the counter no longer equals the stored
sum. -/
theorem C4_counterexample :
    ¬ StorageInv (runOps (Storage.mk0 2) [SOp.place 0 [(0, 1), (0, 1)]]) := by
  intro h
  have h1 := h.1
  revert h1
  decide

/-- Claim C4 (amended): in every Storage state reachable by place, evict
and evict_partially calls in which each place call's parts sequence names
each part index at most once (and evict_partially rounding never exceeds
the part size, as fraction lies in 0..1), used_bytes equals the sum over
all files and parts of the stored sizes, and used_bytes is at most
total_bytes. -/
theorem C4_used_bytes_invariant (total : Nat) (ops : List SOp)
    (hv : ∀ op ∈ ops, op.Valid) :
    StorageInv (runOps (Storage.mk0 total) ops) := by
  have hinit : StorageInv (Storage.mk0 total) := by
    constructor
    · simp [Storage.mk0, filesSum]
    · simp [Storage.mk0]
  have main : ∀ (ops' : List SOp) (s : Storage), StorageInv s →
      (∀ op ∈ ops', op.Valid) → StorageInv (runOps s ops') := by
    intro ops'
    induction ops' with
    | nil => intro s hs _; exact hs
    | cons op rest ih =>
      intro s hs hv'
      show StorageInv ((op :: rest).foldl SOp.apply s)
      rw [List.foldl_cons]
      exact ih _ (StorageInv_apply s op hs (hv' op (by simp)))
        (fun o ho => hv' o (by simp [ho]))
  exact main ops (Storage.mk0 total) hinit hv

/-- Witness for C4: a concrete trace of a place, a fractional partial
eviction (rounding half down) and an evict, on a capacity-10 storage. -/
theorem C4_used_bytes_invariant_witness :
    StorageInv (runOps (Storage.mk0 10)
      [SOp.place 0 [(0, 2), (1, 3)],
       SOp.evictPart 0 false (fun n => n / 2) (some [0]),
       SOp.evict 0]) := by
  apply C4_used_bytes_invariant
  intro op hop
  simp only [List.mem_cons, List.not_mem_nil, or_false] at hop
  rcases hop with rfl | rfl | rfl
  · show ([(0, 2), (1, 3)].map Prod.fst).Nodup
    decide
  · show ∀ n, n / 2 ≤ n
    intro n
    exact Nat.div_le_self n 2
  · exact trivial

theorem idxOf?_spec_some (g : Nat) (l : List Nat) :
    ∀ m, idxOf? g l = some m → l[m]? = some g ∧ ∀ m' < m, l[m']? ≠ some g := by
  induction l with
  | nil => intro m h; simp [idxOf?] at h
  | cons x xs ih =>
    intro m h
    by_cases hx : x = g
    · subst hx
      rw [idxOf?, if_pos rfl] at h
      injection h with h
      subst h
      exact ⟨by simp, by omega⟩
    · simp only [idxOf?, if_neg hx] at h
      cases hxs : idxOf? g xs with
      | none => rw [hxs] at h; simp at h
      | some m0 =>
        rw [hxs] at h
        simp only [Option.map_some', Option.some.injEq] at h
        subst h
        obtain ⟨h1, h2⟩ := ih m0 hxs
        refine ⟨by simpa using h1, ?_⟩
        intro m' hm'
        cases m' with
        | zero =>
          simp only [List.getElem?_cons_zero, ne_eq, Option.some.injEq]
          exact hx
        | succ k =>
          simp only [List.getElem?_cons_succ]
          exact h2 k (by omega)

theorem idxOf?_spec_none (g : Nat) (l : List Nat) (h : idxOf? g l = none) :
    ∀ m < l.length, l[m]? ≠ some g := by
  induction l with
  | nil => intro m hm; simp at hm
  | cons x xs ih =>
    by_cases hx : x = g
    · subst hx; simp [idxOf?] at h
    · simp only [idxOf?, if_neg hx, Option.map_eq_none'] at h
      intro m hm
      cases m with
      | zero =>
        simp only [List.getElem?_cons_zero, ne_eq, Option.some.injEq]
        exact hx
      | succ k =>
        simp only [List.getElem?_cons_succ]
        exact ih h k (by simpa using hm)

theorem buildReuseAux_fst_length (N : Nat) (l : List Nat) (i : Nat) :
    (buildReuseAux N l i).1.length = l.length := by
  induction l generalizing i with
  | nil => rfl
  | cons f rest ih => simp [buildReuseAux, ih]

theorem buildReuseInd_length (files : List Nat) :
    (buildReuseInd files).length = files.length :=
  buildReuseAux_fst_length files.length files 0

theorem buildReuseAux_snd_lookup (N : Nat) (l : List Nat) (i g : Nat) :
    alookup (buildReuseAux N l i).2 g = (idxOf? g l).map (· + i) := by
  induction l generalizing i with
  | nil => simp [buildReuseAux, alookup, idxOf?]
  | cons f rest ih =>
    simp only [buildReuseAux, alookup]
    by_cases hf : f = g
    · simp [hf, idxOf?]
    · simp only [if_neg hf, idxOf?, ih (i + 1)]
      cases hj : idxOf? g rest with
      | none => simp [hj, hf]
      | some m => simp [hj, hf]; omega

theorem buildReuseAux_fst_getD (N : Nat) (l : List Nat) :
    ∀ b k, k < l.length →
    (buildReuseAux N l b).1.getD k 0 =
      ((idxOf? (l.getD k 0) (l.drop (k + 1))).map (fun m => b + k + 1 + m)).getD N := by
  induction l with
  | nil => intro b k hk; simp at hk
  | cons f rest ih =>
    intro b k hk
    cases k with
    | zero =>
      show ((alookup (buildReuseAux N rest (b + 1)).2 f).getD N) = _
      rw [buildReuseAux_snd_lookup]
      simp only [List.getD_cons_zero, List.drop_succ_cons, List.drop_zero]
      cases hj : idxOf? f rest with
      | none => simp [hj]
      | some m => simp [hj]; omega
    | succ k' =>
      show (buildReuseAux N rest (b + 1)).1.getD k' 0 = _
      rw [ih (b + 1) k' (by simpa using hk)]
      simp only [List.getD_cons_succ, List.drop_succ_cons]
      cases hj : idxOf? (rest.getD k' 0) (rest.drop (k' + 1)) with
      | none => simp [hj]
      | some m => simp [hj]; omega

theorem buildReuseInd_spec (files : List Nat) (i : Nat) (hi : i < files.length) :
    NextUseSpec files i ((buildReuseInd files).getD i 0) := by
  have hval := buildReuseAux_fst_getD files.length files 0 i hi
  have hgi : files[i]? = some (files.getD i 0) := by
    rw [List.getD_eq_getElem?_getD, List.getElem?_eq_getElem hi]
    simp
  rw [buildReuseInd]
  cases hidx : idxOf? (files.getD i 0) (files.drop (i + 1)) with
  | none =>
    rw [hidx] at hval
    simp only [Option.map_none', Option.getD_none] at hval
    rw [hval]
    have hnone := idxOf?_spec_none _ _ hidx
    refine ⟨hi, le_refl _, fun h => absurd h (lt_irrefl _), ?_⟩
    intro j hij hjN
    have hj' : j - (i + 1) < (files.drop (i + 1)).length := by
      rw [List.length_drop]
      omega
    have := hnone (j - (i + 1)) hj'
    rw [List.getElem?_drop] at this
    have harith : i + 1 + (j - (i + 1)) = j := by omega
    rw [harith] at this
    rw [hgi]
    exact this
  | some m =>
    rw [hidx] at hval
    simp only [Option.map_some', Option.getD_some, Nat.zero_add] at hval
    rw [hval]
    obtain ⟨hat, hbefore⟩ := idxOf?_spec_some _ _ m hidx
    rw [List.getElem?_drop] at hat
    have hmlen : i + 1 + m < files.length := by
      by_contra hcon
      rw [List.getElem?_eq_none (by omega)] at hat
      exact Option.noConfusion hat
    refine ⟨by omega, by omega, ?_, ?_⟩
    · intro _
      rw [hat, hgi]
    · intro j hij hjr
      have hj' := hbefore (j - (i + 1)) (by omega)
      rw [List.getElem?_drop] at hj'
      have harith : i + 1 + (j - (i + 1)) = j := by omega
      rw [harith] at hj'
      rw [hgi]
      exact hj'

/-- Claim C5: the stored reuse index at every position is the smallest
later position accessing the same file (the sequence length when there is
none); reuse_ind and reuse_time return none, and reuse_ind_inf returns
infinity, exactly in the no-reuse case; and on the sequence a,b,c,a,b the
index array is 3,4,5,5,5 with reuse times 3,3,none,none,none. -/
theorem C5_reuse_timer :
    (∀ (files : List Nat) (i : Nat), i < files.length →
      NextUseSpec files i ((buildReuseInd files).getD i 0))
    ∧ (∀ (files : List Nat) (i : Nat), i < files.length →
        ((reuse_ind files i = none ↔
            ∀ j, i < j → j < files.length → files[j]? ≠ files[i]?)
         ∧ (reuse_time files i = none ↔
            ∀ j, i < j → j < files.length → files[j]? ≠ files[i]?)
         ∧ (reuse_ind_inf files i = ⊤ ↔
            ∀ j, i < j → j < files.length → files[j]? ≠ files[i]?)))
    ∧ buildReuseInd [0, 1, 2, 0, 1] = [3, 4, 5, 5, 5]
    ∧ (List.range 5).map (reuse_time [0, 1, 2, 0, 1]) =
        [some 3, some 3, none, none, none] := by
  have hmain := buildReuseInd_spec
  refine ⟨hmain, ?_, by decide, by decide⟩
  intro files i hi
  obtain ⟨hlt, hle, hat, hmin⟩ := hmain files i hi
  have hlen := buildReuseInd_length files
  have hiff : ((buildReuseInd files).getD i 0 ≥ (buildReuseInd files).length) ↔
      (∀ j, i < j → j < files.length → files[j]? ≠ files[i]?) := by
    rw [hlen]
    constructor
    · intro hge j hij hjN
      exact hmin j hij (by omega)
    · intro hno
      by_contra hcon
      have hrlt : (buildReuseInd files).getD i 0 < files.length := by omega
      exact hno _ hlt hrlt (hat hrlt)
  refine ⟨?_, ?_, ?_⟩
  · rw [← hiff]
    unfold reuse_ind
    by_cases hc : (buildReuseInd files).getD i 0 ≥ (buildReuseInd files).length <;>
      simp [hc]
  · rw [← hiff]
    unfold reuse_time
    by_cases hc : (buildReuseInd files).getD i 0 ≥ (buildReuseInd files).length <;>
      simp [hc]
  · rw [← hiff]
    unfold reuse_ind_inf
    by_cases hc : (buildReuseInd files).getD i 0 ≥ (buildReuseInd files).length <;>
      simp [hc]

/-- Witness for C5: the characterization applied at position 0 of the
sequence a,b,c,a,b, and the no-reuse iff at position 2. -/
theorem C5_reuse_timer_witness :
    NextUseSpec [0, 1, 2, 0, 1] 0 ((buildReuseInd [0, 1, 2, 0, 1]).getD 0 0)
    ∧ (reuse_ind [0, 1, 2, 0, 1] 2 = none ↔
        ∀ j, 2 < j → j < ([0, 1, 2, 0, 1] : List Nat).length →
          ([0, 1, 2, 0, 1] : List Nat)[j]? ≠ ([0, 1, 2, 0, 1] : List Nat)[2]?) :=
  ⟨C5_reuse_timer.1 [0, 1, 2, 0, 1] 0 (by decide),
   (C5_reuse_timer.2.1 [0, 1, 2, 0, 1] 2 (by decide)).1⟩

theorem evictOne_sum (file rq : Nat) (st : LoopSt) (c : Nat)
    (h : st.contained_bytes + st.missing_bytes = rq) :
    (evictOne file rq st c).contained_bytes +
      (evictOne file rq st c).missing_bytes = rq := by
  unfold evictOne
  by_cases hc : c = file
  all_goals simp [hc]
  all_goals omega

theorem foldl_evictOne_sum (file rq : Nat) (cs : List Nat) (st : LoopSt)
    (h : st.contained_bytes + st.missing_bytes = rq) :
    (cs.foldl (evictOne file rq) st).contained_bytes +
      (cs.foldl (evictOne file rq) st).missing_bytes = rq := by
  induction cs generalizing st with
  | nil => exact h
  | cons c tl ih =>
    rw [List.foldl_cons]
    exact ih _ (evictOne_sum file rq st c h)

theorem evictLoop_sum {σ : Type} (pol : Policy σ) (access : Access)
    (ind rq : Nat) :
    ∀ (fuel : Nat) (polSt : σ) (st : LoopSt) (res : σ × LoopSt),
    evictLoop pol access ind rq fuel polSt st = some res →
    st.contained_bytes + st.missing_bytes = rq →
    res.2.contained_bytes + res.2.missing_bytes = rq := by
  intro fuel
  induction fuel with
  | zero =>
    intro polSt st res h
    simp [evictLoop] at h
  | succ n ih =>
    intro polSt st res h hsum
    rw [evictLoop] at h
    split at h
    · split at h
      · exact absurd h (by simp)
      · exact ih _ _ res h (foldl_evictOne_sum access.file rq _ st hsum)
    · rw [Option.some.injEq] at h
      rw [← h]
      exact hsum

/-- Claim C1: for every access processed by the state-driven processor
(any policy), the emitted AccessInfo satisfies bytes_hit + bytes_missed =
the requested byte count, including accesses during which the accessed
file itself is popped as an eviction candidate. -/
theorem C1_bytes_accounting {σ : Type} (pol : Policy σ) (fuel : Nat)
    (storage : Storage) (polSt : σ) (ind : Nat) (access : Access)
    (info : AccessInfo) (storage' : Storage) (polSt' : σ)
    (h : processOneAccess pol fuel storage polSt ind access =
      some (info, storage', polSt')) :
    info.bytes_hit + info.bytes_missed = requestedBytes access.parts := by
  have hcle := containedBytes_le_requested storage access.file access.parts
  simp only [processOneAccess] at h
  split at h
  · split at h
    · exact absurd h (by simp)
    · simp only [Option.some.injEq, Prod.mk.injEq] at h
      obtain ⟨hinfo, -, -⟩ := h
      rw [← hinfo]
      simp only []
      omega
  · split at h
    · exact absurd h (by simp)
    · rename_i res hloop
      split at h
      · exact absurd h (by simp)
      · rename_i storage2 placed hplace
        split at h
        · exact absurd h (by simp)
        · simp only [Option.some.injEq, Prod.mk.injEq] at h
          obtain ⟨hinfo, -, -⟩ := h
          rw [← hinfo]
          simp only []
          exact evictLoop_sum pol access ind (requestedBytes access.parts)
            fuel polSt _ res hloop (by simp only []; omega)

/-- Witness for C1: an LRU processor with capacity 4 holding one byte each
of files 0 and 1; an access requesting 4 bytes of file 0 evicts file 0
itself and then file 1, and is accounted as a complete miss of 4 bytes. -/
theorem C1_bytes_accounting_witness :
    (AccessInfo.mk ⟨7, 0, [(0, 4)]⟩ true 0 4 4 2 4 [0, 1]).bytes_hit +
      (AccessInfo.mk ⟨7, 0, [(0, 4)]⟩ true 0 4 4 2 4 [0, 1]).bytes_missed =
      requestedBytes [(0, 4)] :=
  C1_bytes_accounting lruPolicy 5 (Storage.mk 4 2 [(0, [(0, 1)]), (1, [(0, 1)])])
    [1, 0] 2 ⟨7, 0, [(0, 4)]⟩ (AccessInfo.mk ⟨7, 0, [(0, 4)]⟩ true 0 4 4 2 4 [0, 1])
    (Storage.mk 4 4 [(0, [(0, 4)])]) [0] (by decide)

theorem containsFile_of_containedBytes_pos (s : Storage) (f : Nat)
    (parts : List (Nat × Nat)) (h : 0 < s.containedBytes f parts) :
    s.containsFile f = true := by
  unfold Storage.containedBytes at h
  unfold Storage.containsFile
  cases hlk : alookup s.files f with
  | none => rw [hlk] at h; simp at h
  | some fp => simp

/-- Claim C2 as stated is refuted by a degenerate access requesting zero
bytes of an absent file: the missing_bytes == 0 path hard-codes file_hit
to true although the storage did not contain the file (a GreedyDual
processor, whose process_access tolerates unknown files, emits it). -/
theorem C2_counterexample :
    (processOneAccess (gdPolicy GDMode.ACCESS_SIZE) 1 (Storage.mk0 1)
        ⟨[], 0⟩ 0 ⟨5, 0, []⟩).map (fun r => r.1.file_hit) = some true
    ∧ (Storage.mk0 1).containsFile 0 = false := by
  decide

/-- Claim C2 (amended): for every access requesting at least one byte, the
emitted AccessInfo.file_hit is true iff the storage contained the accessed
file immediately before the access was processed; only the degenerate
zero-byte access to an absent file reports file_hit although the file was
absent. -/
theorem C2_file_hit {σ : Type} (pol : Policy σ) (fuel : Nat)
    (storage : Storage) (polSt : σ) (ind : Nat) (access : Access)
    (info : AccessInfo) (storage' : Storage) (polSt' : σ)
    (h : processOneAccess pol fuel storage polSt ind access =
      some (info, storage', polSt'))
    (hpos : 0 < requestedBytes access.parts) :
    info.file_hit = storage.containsFile access.file := by
  have hcle := containedBytes_le_requested storage access.file access.parts
  simp only [processOneAccess] at h
  split at h
  · rename_i hm
    split at h
    · exact absurd h (by simp)
    · simp only [Option.some.injEq, Prod.mk.injEq] at h
      obtain ⟨hinfo, -, -⟩ := h
      rw [← hinfo]
      simp only []
      exact (containsFile_of_containedBytes_pos storage access.file
        access.parts (by omega)).symm
  · split at h
    · exact absurd h (by simp)
    · split at h
      · exact absurd h (by simp)
      · split at h
        · exact absurd h (by simp)
        · simp only [Option.some.injEq, Prod.mk.injEq] at h
          obtain ⟨hinfo, -, -⟩ := h
          rw [← hinfo]

/-- Witness for C2: a one-byte access to an empty LRU cache reports
file_hit = false, matching the absence of the file. -/
theorem C2_file_hit_witness :
    (AccessInfo.mk ⟨1, 0, [(0, 1)]⟩ false 0 1 1 0 1 []).file_hit =
      (Storage.mk0 1).containsFile 0 :=
  C2_file_hit lruPolicy 3 (Storage.mk0 1) [] 0 ⟨1, 0, [(0, 1)]⟩
    (AccessInfo.mk ⟨1, 0, [(0, 1)]⟩ false 0 1 1 0 1 [])
    (Storage.mk 1 1 [(0, [(0, 1)])]) [0] (by decide) (by decide)

/-- Claim C6 as stated is refuted in TOTAL_SIZE mode: after caching files
0 and 1 and one eviction (threshold 1), an access to file 2 with 2 cached
bytes stores priority threshold + (total_bytes + threshold) = 4, not
max(current_credit, cost) + threshold = 3. -/
theorem C6_counterexample :
    (gdPop (gdProcAcc GDMode.TOTAL_SIZE
        (gdProcAcc GDMode.TOTAL_SIZE ⟨[], 0⟩ 0 ⟨⟨0, 0, []⟩, false, 0, 0, 0, 0, 1, []⟩)
        1 ⟨⟨0, 0, []⟩, false, 0, 0, 0, 0, 1, []⟩)
      = some ([0], ⟨[(1, (1, 0))], 1⟩))
    ∧ ¬ ((alookup (gdProcAcc GDMode.TOTAL_SIZE ⟨[(1, (1, 0))], 1⟩ 2
          ⟨⟨0, 0, []⟩, false, 0, 0, 0, 0, 2, []⟩).entries 2).map Prod.fst
        = some (max (gdCurrentCredit ⟨[(1, (1, 0))], 1⟩ 2)
            (gdCost GDMode.TOTAL_SIZE ⟨⟨0, 0, []⟩, false, 0, 0, 0, 0, 2, []⟩)
            + GDState.threshold ⟨[(1, (1, 0))], 1⟩)) := by
  constructor
  · simp only [gdProcAcc, gdPop, gdArgmin, aset, aremove, alookup]
    norm_num
  · simp only [gdProcAcc, gdPop, gdArgmin, gdCurrentCredit, gdCost, aset,
      aremove, alookup]
    norm_num

/-- Claim C6 (amended): after GreedyDual's process_access, the priority
stored in the queue for the accessed file is total_bytes + 2 * threshold
in TOTAL_SIZE mode (the threshold is added twice there), and
max(current_credit, requested_bytes) + threshold in ACCESS_SIZE mode,
where current_credit is the stored value minus the threshold (0 for a
file not in the queue). -/
theorem C6_priority_update (mode : GDMode) (st : GDState) (file : Nat)
    (info : AccessInfo) :
    (alookup (gdProcAcc mode st file info).entries file).map Prod.fst =
      some (match mode with
        | GDMode.TOTAL_SIZE => (info.total_bytes : ℚ) + 2 * st.threshold
        | GDMode.ACCESS_SIZE =>
            max (gdCurrentCredit st file) (info.bytes_requested : ℚ) +
              st.threshold) := by
  cases mode
  · simp only [gdProcAcc, alookup_aset_self, Option.map_some']
    congr 1
    ring
  · simp only [gdProcAcc, gdCurrentCredit, alookup_aset_self, Option.map_some']
    congr 1
    ring

/-- Claim C10 as stated is refuted by overwriting an existing key:
__setitem__ adds the new size to total_size without subtracting the old
one, so after inserting sizes 5 then 3 under the same key total_size is 8
while the stored sum is 3. -/
theorem C10_counterexample :
    ¬ FInv (runFOps ⟨[], 0⟩ [FOp.setitem 0 5, FOp.setitem 0 3]) := by
  unfold FInv
  decide

theorem isum_aset_absent (l : List (Nat × Int)) (k : Nat) (v : Int)
    (h : alookup l k = none) : entriesSum (aset l k v) = entriesSum l + v := by
  induction l with
  | nil => simp [aset, entriesSum]
  | cons hd tl ih =>
    obtain ⟨k', v'⟩ := hd
    by_cases hk : k' = k
    · rw [alookup, if_pos hk] at h
      exact absurd h (by simp)
    · rw [alookup, if_neg hk] at h
      rw [aset, if_neg hk]
      simp only [entriesSum, List.map_cons, List.sum_cons] at *
      rw [ih h]
      ring

theorem isum_aset_present (l : List (Nat × Int)) (k : Nat) (v sz : Int)
    (h : alookup l k = some sz) :
    entriesSum (aset l k v) = entriesSum l - sz + v := by
  induction l with
  | nil => simp [alookup] at h
  | cons hd tl ih =>
    obtain ⟨k', v'⟩ := hd
    by_cases hk : k' = k
    · rw [alookup, if_pos hk] at h
      rw [Option.some.injEq] at h
      rw [aset, if_pos hk]
      simp only [entriesSum, List.map_cons, List.sum_cons]
      rw [← h]
      ring
    · rw [alookup, if_neg hk] at h
      rw [aset, if_neg hk]
      simp only [entriesSum, List.map_cons, List.sum_cons] at *
      rw [ih h]
      ring

theorem isum_aremove (l : List (Nat × Int)) (k : Nat) (sz : Int)
    (h : alookup l k = some sz) :
    entriesSum (aremove l k) = entriesSum l - sz := by
  induction l with
  | nil => simp [alookup] at h
  | cons hd tl ih =>
    obtain ⟨k', v'⟩ := hd
    by_cases hk : k' = k
    · rw [alookup, if_pos hk] at h
      rw [Option.some.injEq] at h
      rw [aremove, if_pos hk]
      simp only [entriesSum, List.map_cons, List.sum_cons]
      rw [← h]
      ring
    · rw [alookup, if_neg hk] at h
      rw [aremove, if_neg hk]
      simp only [entriesSum, List.map_cons, List.sum_cons] at *
      rw [ih h]
      ring

theorem isum_dropLast (l : List (Nat × Int)) (e : Nat × Int)
    (h : l.getLast? = some e) :
    entriesSum l.dropLast = entriesSum l - e.2 := by
  induction l with
  | nil => simp at h
  | cons x tl ih =>
    cases tl with
    | nil =>
      simp only [List.getLast?_singleton, Option.some.injEq] at h
      subst h
      simp [entriesSum]
    | cons y tl' =>
      rw [List.getLast?_cons_cons] at h
      have := ih h
      simp only [List.dropLast_cons₂, entriesSum, List.map_cons, List.sum_cons] at *
      rw [this]
      ring

theorem FInv_apply (d : FileLRU) (op : FOp) (h : FInv d)
    (hv : FOpValidIn d op = true) : FInv (FOp.apply d op) := by
  cases op with
  | setitem f sz =>
    have hab : alookup d.entries f = none := by
      simp only [FOpValidIn, Option.isNone_iff_eq_none] at hv
      exact hv
    show (⟨aset d.entries f sz, d.total_size + sz⟩ : FileLRU).total_size =
      entriesSum (aset d.entries f sz)
    rw [isum_aset_absent d.entries f sz hab, h]
  | delitem f =>
    cases hlk : alookup d.entries f with
    | none => simpa only [FOp.apply, hlk] using h
    | some sz =>
      simp only [FOp.apply, hlk]
      show d.total_size - sz = entriesSum (aremove d.entries f)
      rw [isum_aremove d.entries f sz hlk, h]
  | pop =>
    cases hlk : d.entries.getLast? with
    | none => simpa only [FOp.apply, hlk] using h
    | some e =>
      simp only [FOp.apply, hlk]
      show d.total_size - e.2 = entriesSum d.entries.dropLast
      rw [isum_dropLast d.entries e hlk, h]
  | addBytesToFile f n =>
    cases hlk : alookup d.entries f with
    | none => simpa only [FOp.apply, hlk] using h
    | some sz =>
      simp only [FOp.apply, hlk]
      show d.total_size + n = entriesSum (aset d.entries f (sz + n))
      rw [isum_aset_present d.entries f (sz + n) sz hlk, h]
      ring
  | removeBytesToFile f n =>
    cases hlk : alookup d.entries f with
    | none => simpa only [FOp.apply, hlk] using h
    | some sz =>
      simp only [FOp.apply, hlk]
      show d.total_size - n = entriesSum (aset d.entries f (sz - n))
      rw [isum_aset_present d.entries f (sz - n) sz hlk, h]
      ring

/-- Claim C10 (amended): after every FileLRUDict operation in any trace
from the empty dict in which __setitem__ only ever targets keys not
currently present, total_size equals the sum of the stored sizes
(overwriting an existing key leaves total_size too large by the old
size). -/
theorem C10_total_size (ops : List FOp)
    (hv : validFTrace ⟨[], 0⟩ ops = true) : FInv (runFOps ⟨[], 0⟩ ops) := by
  have main : ∀ (ops' : List FOp) (d : FileLRU), FInv d →
      validFTrace d ops' = true → FInv (runFOps d ops') := by
    intro ops'
    induction ops' with
    | nil => intro d hd _; exact hd
    | cons op rest ih =>
      intro d hd hv'
      rw [validFTrace, Bool.and_eq_true] at hv'
      show FInv ((op :: rest).foldl FOp.apply d)
      rw [List.foldl_cons]
      exact ih _ (FInv_apply d op hd hv'.1) hv'.2
  exact main ops ⟨[], 0⟩ rfl hv

theorem entryLE_refl {α : Type} (a : MEntry α) : entryLE a a = true := by
  simp [entryLE]

theorem entryLE_total {α : Type} (a b : MEntry α) (h : ¬ entryLE a b = true) :
    entryLE b a = true := by
  simp only [entryLE, Bool.or_eq_true, Bool.and_eq_true, decide_eq_true_eq,
    not_or, not_and] at *
  omega

theorem entryLE_trans {α : Type} (a b c : MEntry α) (h1 : entryLE a b = true)
    (h2 : entryLE b c = true) : entryLE a c = true := by
  simp only [entryLE, Bool.or_eq_true, Bool.and_eq_true, decide_eq_true_eq] at *
  omega

theorem entryLE_strict {α : Type} (a b : MEntry α) (hle : entryLE a b = true)
    (hne : a.idx ≠ b.idx) : lexLT (entryKey a) (entryKey b) := by
  simp only [entryLE, Bool.or_eq_true, Bool.and_eq_true, decide_eq_true_eq,
    lexLT, entryKey] at *
  omega

theorem lexLT_trans {a b c : Nat × Nat} (h1 : lexLT a b) (h2 : lexLT b c) :
    lexLT a c := by
  unfold lexLT at *
  omega

theorem popMin_eq_none {α : Type} (h : List (MEntry α)) :
    popMin h = none ↔ h = [] := by
  cases h with
  | nil => simp [popMin]
  | cons e rest =>
    constructor
    · intro hc
      rw [popMin] at hc
      cases hm : popMin rest with
      | none => rw [hm] at hc; exact absurd hc (by simp)
      | some m =>
        rw [hm] at hc
        by_cases hle : entryLE e m.1 <;> simp [hle] at hc
    · intro hc
      exact absurd hc (by simp)

theorem popMin_perm {α : Type} :
    ∀ (h : List (MEntry α)) (e : MEntry α) (h' : List (MEntry α)),
    popMin h = some (e, h') → h.Perm (e :: h') := by
  intro h
  induction h with
  | nil => intro e h' hc; simp [popMin] at hc
  | cons a rest ih =>
    intro e h' hc
    rw [popMin] at hc
    cases hm : popMin rest with
    | none =>
      simp only [hm, Option.some.injEq, Prod.mk.injEq] at hc
      obtain ⟨he, hh'⟩ := hc
      subst he
      subst hh'
      have hrest : rest = [] := (popMin_eq_none rest).mp hm
      subst hrest
      exact List.Perm.refl _
    | some m =>
      simp only [hm] at hc
      by_cases hle : entryLE a m.1
      · rw [if_pos hle] at hc
        simp only [Option.some.injEq, Prod.mk.injEq] at hc
        obtain ⟨he, hh'⟩ := hc
        subst he
        subst hh'
        exact List.Perm.refl _
      · rw [if_neg hle] at hc
        simp only [Option.some.injEq, Prod.mk.injEq] at hc
        obtain ⟨he, hh'⟩ := hc
        subst he
        subst hh'
        exact List.Perm.trans (List.Perm.cons a (ih m.1 m.2 hm))
          (List.Perm.swap m.1 a m.2)

theorem popMin_min {α : Type} :
    ∀ (h : List (MEntry α)) (e : MEntry α) (h' : List (MEntry α)),
    popMin h = some (e, h') → ∀ x ∈ h, entryLE e x = true := by
  intro h
  induction h with
  | nil => intro e h' hc x hx; simp [popMin] at hc
  | cons a rest ih =>
    intro e h' hc x hx
    rw [popMin] at hc
    cases hm : popMin rest with
    | none =>
      simp only [hm, Option.some.injEq, Prod.mk.injEq] at hc
      obtain ⟨he, -⟩ := hc
      subst he
      have hrest : rest = [] := (popMin_eq_none rest).mp hm
      subst hrest
      simp only [List.mem_singleton] at hx
      subst hx
      exact entryLE_refl _
    | some m =>
      simp only [hm] at hc
      by_cases hle : entryLE a m.1
      · rw [if_pos hle] at hc
        simp only [Option.some.injEq, Prod.mk.injEq] at hc
        obtain ⟨he, -⟩ := hc
        subst he
        rcases List.mem_cons.mp hx with hxa | hx'
        · subst hxa
          exact entryLE_refl _
        · exact entryLE_trans _ m.1 x hle (ih m.1 m.2 hm x hx')
      · rw [if_neg hle] at hc
        simp only [Option.some.injEq, Prod.mk.injEq] at hc
        obtain ⟨he, -⟩ := hc
        subst he
        rcases List.mem_cons.mp hx with hxa | hx'
        · subst hxa
          exact entryLE_total _ m.1 hle
        · exact ih m.1 m.2 hm x hx'

theorem chain'_imp_mem {α : Type} {R S : α → α → Prop} :
    ∀ (l : List α), (∀ a ∈ l, ∀ b ∈ l, R a b → S a b) →
    List.Chain' R l → List.Chain' S l := by
  intro l
  induction l with
  | nil => intro _ _; exact List.chain'_nil
  | cons a tl ih =>
    intro himp hch
    cases tl with
    | nil => exact List.chain'_singleton a
    | cons b tl' =>
      rw [List.chain'_cons] at hch ⊢
      refine ⟨himp a (by simp) b (by simp) hch.1, ?_⟩
      exact ih (fun x hx y hy => himp x (by simp [hx]) y (by simp [hy])) hch.2

theorem mergeRun_main {α : Type} (key : α → Nat) :
    ∀ (fuel : Nat) (h : List (MEntry α)) (c : Nat),
    (∀ e ∈ h, List.Chain' (· ≤ ·) (e.ts :: e.rest.map key)) →
    (∀ e ∈ h, e.idx < c) →
    (∀ e ∈ h, e.ts = key e.ev) →
    h.Pairwise (fun a b => a.idx ≠ b.idx) →
    List.Chain' (fun a b => lexLT (entryKey a) (entryKey b))
      (mergeRunFuel key fuel h c)
    ∧ (∀ x ∈ mergeRunFuel key fuel h c, x.ts = key x.ev)
    ∧ (∀ x ∈ mergeRunFuel key fuel h c, ∀ b : Nat × Nat,
        (∀ e ∈ h, lexLT b (entryKey e)) → lexLT b (entryKey x)) := by
  intro fuel
  induction fuel with
  | zero =>
    intro h c _ _ _ _
    simp [mergeRunFuel]
  | succ n ih =>
    intro h c hsort hbound hts hdist
    cases hpop : popMin h with
    | none => simp [mergeRunFuel, hpop]
    | some eh =>
      obtain ⟨e, h'⟩ := eh
      have hperm := popMin_perm h e h' hpop
      have hmemE : e ∈ h := hperm.mem_iff.mpr (List.mem_cons_self e h')
      have hsub' : ∀ x ∈ h', x ∈ h :=
        fun x hx => hperm.mem_iff.mpr (List.mem_cons_of_mem e hx)
      have hpair' : List.Pairwise (fun a b : MEntry α => a.idx ≠ b.idx) (e :: h') :=
        (hperm.pairwise_iff (fun hab => Ne.symm hab)).mp hdist
      have hdistE : ∀ x ∈ h', e.idx ≠ x.idx := (List.pairwise_cons.mp hpair').1
      have hpairT : List.Pairwise (fun a b : MEntry α => a.idx ≠ b.idx) h' :=
        (List.pairwise_cons.mp hpair').2
      have hmin := popMin_min h e h' hpop
      have hlower : ∀ y ∈ h', lexLT (entryKey e) (entryKey y) :=
        fun y hy => entryLE_strict e y (hmin y (hsub' y hy)) (hdistE y hy)
      cases hrest : e.rest with
      | nil =>
        have hgoal : mergeRunFuel key (n + 1) h c = e :: mergeRunFuel key n h' c := by
          simp only [mergeRunFuel, hpop, hrest]
        rw [hgoal]
        have IH := ih h' c (fun x hx => hsort x (hsub' x hx))
          (fun x hx => hbound x (hsub' x hx))
          (fun x hx => hts x (hsub' x hx)) hpairT
        refine ⟨?_, ?_, ?_⟩
        · apply List.chain'_cons'.mpr
          refine ⟨?_, IH.1⟩
          intro b hb
          exact IH.2.2 b (List.mem_of_mem_head? hb) (entryKey e) hlower
        · intro x hx
          rcases List.mem_cons.mp hx with hxe | hx'
          · subst hxe
            exact hts _ hmemE
          · exact IH.2.1 x hx'
        · intro x hx b hb
          rcases List.mem_cons.mp hx with hxe | hx'
          · subst hxe
            exact hb _ hmemE
          · exact IH.2.2 x hx' b (fun y hy => hb y (hsub' y hy))
      | cons x0 r =>
        have hgoal : mergeRunFuel key (n + 1) h c =
            e :: mergeRunFuel key n (h' ++ [⟨key x0, c, x0, r⟩]) (c + 1) := by
          simp only [mergeRunFuel, hpop, hrest]
        rw [hgoal]
        have hchainE := hsort e hmemE
        rw [hrest] at hchainE
        simp only [List.map_cons] at hchainE
        rw [List.chain'_cons] at hchainE
        have hnew : List.Chain' (· ≤ ·) ((key x0 : Nat) :: r.map key) := hchainE.2
        have hlowNew : lexLT (entryKey e) (entryKey ⟨key x0, c, x0, r⟩) := by
          have h1 : e.ts ≤ key x0 := hchainE.1
          have h2 : e.idx < c := hbound e hmemE
          unfold lexLT entryKey
          simp only []
          omega
        have hsort2 : ∀ y ∈ h' ++ [⟨key x0, c, x0, r⟩],
            List.Chain' (· ≤ ·) (y.ts :: y.rest.map key) := by
          intro y hy
          rcases List.mem_append.mp hy with hy' | hy'
          · exact hsort y (hsub' y hy')
          · simp only [List.mem_singleton] at hy'
            subst hy'
            exact hnew
        have hbound2 : ∀ y ∈ h' ++ [⟨key x0, c, x0, r⟩], y.idx < c + 1 := by
          intro y hy
          rcases List.mem_append.mp hy with hy' | hy'
          · have := hbound y (hsub' y hy')
            omega
          · simp only [List.mem_singleton] at hy'
            subst hy'
            simp
        have hts2 : ∀ y ∈ h' ++ [⟨key x0, c, x0, r⟩], y.ts = key y.ev := by
          intro y hy
          rcases List.mem_append.mp hy with hy' | hy'
          · exact hts y (hsub' y hy')
          · simp only [List.mem_singleton] at hy'
            subst hy'
            rfl
        have hpair2 : List.Pairwise (fun a b : MEntry α => a.idx ≠ b.idx)
            (h' ++ [⟨key x0, c, x0, r⟩]) := by
          rw [List.pairwise_append]
          refine ⟨hpairT, List.pairwise_singleton _ _, ?_⟩
          intro a ha b hb
          simp only [List.mem_singleton] at hb
          subst hb
          have := hbound a (hsub' a ha)
          simp only []
          omega
        have hlower2 : ∀ y ∈ h' ++ [⟨key x0, c, x0, r⟩],
            lexLT (entryKey e) (entryKey y) := by
          intro y hy
          rcases List.mem_append.mp hy with hy' | hy'
          · exact hlower y hy'
          · simp only [List.mem_singleton] at hy'
            subst hy'
            exact hlowNew
        have IH := ih (h' ++ [⟨key x0, c, x0, r⟩]) (c + 1) hsort2 hbound2 hts2 hpair2
        refine ⟨?_, ?_, ?_⟩
        · apply List.chain'_cons'.mpr
          refine ⟨?_, IH.1⟩
          intro b hb
          exact IH.2.2 b (List.mem_of_mem_head? hb) (entryKey e) hlower2
        · intro x hx
          rcases List.mem_cons.mp hx with hxe | hx'
          · subst hxe
            exact hts _ hmemE
          · exact IH.2.1 x hx'
        · intro x hx b hb
          rcases List.mem_cons.mp hx with hxe | hx'
          · subst hxe
            exact hb _ hmemE
          · refine IH.2.2 x hx' b ?_
            intro y hy
            rcases List.mem_append.mp hy with hy' | hy'
            · exact hb y (hsub' y hy')
            · simp only [List.mem_singleton] at hy'
              subst hy'
              exact lexLT_trans (hb e hmemE) hlowNew

theorem initMerge_inv {α : Type} (key : α → Nat) (streams : List (List α))
    (hs : ∀ s ∈ streams, List.Chain' (fun a b => key a ≤ key b) s) :
    (∀ e ∈ (initMerge key streams).1,
      List.Chain' (· ≤ ·) (e.ts :: e.rest.map key))
    ∧ (∀ e ∈ (initMerge key streams).1, e.idx < (initMerge key streams).2)
    ∧ (∀ e ∈ (initMerge key streams).1, e.ts = key e.ev)
    ∧ (initMerge key streams).1.Pairwise (fun a b => a.idx ≠ b.idx) := by
  have main : ∀ (ss : List (List α)) (hc : List (MEntry α) × Nat),
      (∀ s ∈ ss, List.Chain' (fun a b => key a ≤ key b) s) →
      (∀ e ∈ hc.1, List.Chain' (· ≤ ·) (e.ts :: e.rest.map key)) →
      (∀ e ∈ hc.1, e.idx < hc.2) →
      (∀ e ∈ hc.1, e.ts = key e.ev) →
      hc.1.Pairwise (fun a b => a.idx ≠ b.idx) →
      (∀ e ∈ (ss.foldl (pushStream key) hc).1,
        List.Chain' (· ≤ ·) (e.ts :: e.rest.map key))
      ∧ (∀ e ∈ (ss.foldl (pushStream key) hc).1,
          e.idx < (ss.foldl (pushStream key) hc).2)
      ∧ (∀ e ∈ (ss.foldl (pushStream key) hc).1, e.ts = key e.ev)
      ∧ (ss.foldl (pushStream key) hc).1.Pairwise (fun a b => a.idx ≠ b.idx) := by
    intro ss
    induction ss with
    | nil => intro hc _ h1 h2 h3 h4; exact ⟨h1, h2, h3, h4⟩
    | cons s rest ih =>
      intro hc hss h1 h2 h3 h4
      rw [List.foldl_cons]
      cases s with
      | nil =>
        exact ih hc (fun t ht => hss t (by simp [ht])) h1 h2 h3 h4
      | cons x0 r =>
        have hsx0 := hss (x0 :: r) (by simp)
        have hsx : List.Chain' (· ≤ ·) ((key x0) :: r.map key) := by
          have := (List.chain'_map key).mpr hsx0
          simpa using this
        have hpush : pushStream key hc (x0 :: r) =
            (hc.1 ++ [MEntry.mk (key x0) hc.2 x0 r], hc.2 + 1) := rfl
        rw [hpush]
        apply ih (hc.1 ++ [MEntry.mk (key x0) hc.2 x0 r], hc.2 + 1)
          (fun t ht => hss t (by simp [ht]))
        · intro e he
          rcases List.mem_append.mp he with he' | he'
          · exact h1 e he'
          · simp only [List.mem_singleton] at he'
            subst he'
            exact hsx
        · intro e he
          rcases List.mem_append.mp he with he' | he'
          · have := h2 e he'
            simp only []
            omega
          · simp only [List.mem_singleton] at he'
            subst he'
            simp
        · intro e he
          rcases List.mem_append.mp he with he' | he'
          · exact h3 e he'
          · simp only [List.mem_singleton] at he'
            subst he'
            rfl
        · rw [List.pairwise_append]
          refine ⟨h4, List.pairwise_singleton _ _, ?_⟩
          intro a ha b hb
          simp only [List.mem_singleton] at hb
          subst hb
          have := h2 a ha
          simp only []
          omega
  exact main streams ([], 0) hs (by simp) (by simp) (by simp) List.Pairwise.nil

/-- Claim C9: given that each per-processor AccessInfo stream is
non-decreasing in access_ts, the merged stream produced by the offline
cache system's EventMerger is non-decreasing in access_ts, and the merged
entries are strictly increasing in (access_ts, insertion index), i.e.
ties are emitted in the stable insertion order of the merge queue. -/
theorem C9_offline_merge_order (streams : List (List AccessInfo))
    (hs : ∀ s ∈ streams,
      List.Chain' (fun a b => AccessInfo.keyTs a ≤ AccessInfo.keyTs b) s) :
    List.Chain' (fun a b => a.access.access_ts ≤ b.access.access_ts)
      (mergeEvents AccessInfo.keyTs streams)
    ∧ List.Chain' (fun a b => lexLT (entryKey a) (entryKey b))
      (mergeEntries AccessInfo.keyTs streams) := by
  obtain ⟨h1, h2, h3, h4⟩ := initMerge_inv AccessInfo.keyTs streams hs
  have hmain := mergeRun_main AccessInfo.keyTs
    (heapSize (initMerge AccessInfo.keyTs streams).1)
    (initMerge AccessInfo.keyTs streams).1
    (initMerge AccessInfo.keyTs streams).2 h1 h2 h3 h4
  have hEnt : List.Chain' (fun a b => lexLT (entryKey a) (entryKey b))
      (mergeEntries AccessInfo.keyTs streams) := hmain.1
  refine ⟨?_, hEnt⟩
  unfold mergeEvents
  rw [List.chain'_map]
  apply chain'_imp_mem (mergeEntries AccessInfo.keyTs streams)
    (R := fun a b => lexLT (entryKey a) (entryKey b))
  · intro a ha b hb hab
    have hta := hmain.2.1 a ha
    have htb := hmain.2.1 b hb
    show AccessInfo.keyTs a.ev ≤ AccessInfo.keyTs b.ev
    rw [← hta, ← htb]
    unfold lexLT entryKey at hab
    omega
  · exact hEnt

/-- Witness for C9: two streams with timestamps 1,4,5 and 2,3,6 merge into
the timestamp sequence 1,2,3,4,5,6. -/
theorem C9_offline_merge_order_witness :
    (mergeEvents AccessInfo.keyTs
      [[⟨⟨1, 0, []⟩, false, 0, 0, 0, 0, 0, []⟩, ⟨⟨4, 0, []⟩, false, 0, 0, 0, 0, 0, []⟩,
        ⟨⟨5, 0, []⟩, false, 0, 0, 0, 0, 0, []⟩],
       [⟨⟨2, 0, []⟩, false, 0, 0, 0, 0, 0, []⟩, ⟨⟨3, 0, []⟩, false, 0, 0, 0, 0, 0, []⟩,
        ⟨⟨6, 0, []⟩, false, 0, 0, 0, 0, 0, []⟩]]).map AccessInfo.keyTs
      = [1, 2, 3, 4, 5, 6]
    ∧ List.Chain' (fun a b => a.access.access_ts ≤ b.access.access_ts)
      (mergeEvents AccessInfo.keyTs
      [[⟨⟨1, 0, []⟩, false, 0, 0, 0, 0, 0, []⟩, ⟨⟨4, 0, []⟩, false, 0, 0, 0, 0, 0, []⟩,
        ⟨⟨5, 0, []⟩, false, 0, 0, 0, 0, 0, []⟩],
       [⟨⟨2, 0, []⟩, false, 0, 0, 0, 0, 0, []⟩, ⟨⟨3, 0, []⟩, false, 0, 0, 0, 0, 0, []⟩,
        ⟨⟨6, 0, []⟩, false, 0, 0, 0, 0, 0, []⟩]]) :=
  ⟨by decide,
   (C9_offline_merge_order
     [[⟨⟨1, 0, []⟩, false, 0, 0, 0, 0, 0, []⟩, ⟨⟨4, 0, []⟩, false, 0, 0, 0, 0, 0, []⟩,
       ⟨⟨5, 0, []⟩, false, 0, 0, 0, 0, 0, []⟩],
      [⟨⟨2, 0, []⟩, false, 0, 0, 0, 0, 0, []⟩, ⟨⟨3, 0, []⟩, false, 0, 0, 0, 0, 0, []⟩,
       ⟨⟨6, 0, []⟩, false, 0, 0, 0, 0, 0, []⟩]] (by
      intro s hs
      simp only [List.mem_cons, List.not_mem_nil, or_false] at hs
      rcases hs with rfl | rfl <;>
        norm_num [List.chain'_cons, AccessInfo.keyTs])).1⟩

theorem sum_map_zero {β : Type} (l : List β) : (l.map (fun _ => (0 : Nat))).sum = 0 := by
  induction l with
  | nil => rfl
  | cons a tl ih => simp [ih]

/-- Claim C7 as stated is refuted on its own trace: for access("a",1),
access("a",1), reset, access("a",1), the post-reset access reports
bytes_added = 1, not 0 — the filter re-attributes the warm cached byte as
added (bytes_added := bytes_added + bytes_hit - new bytes_hit). -/
theorem C7_counterexample :
    c7run.map (fun i => i.bytes_added) = some 1
    ∧ c7run.map (fun i => i.bytes_added) ≠ some 0 := by
  constructor
  · decide
  · decide

/-- Claim C7 (amended): immediately after StatsCollector.reset(), the
first subsequent access to a currently-cached file whose requested parts
are all fully marked reports its already-cached bytes as missed rather
than hit, with bytes_added equal to the pre-filter bytes_added plus the
re-attributed (formerly hit) bytes; concretely, for the trace
access("a",1), access("a",1), reset, access("a",1) the post-reset access
reports bytes_hit = 0, bytes_missed = 1 and bytes_added = 1. -/
theorem C7_warm_up_reset :
    (∀ (m : Marked) (i : AccessInfoF) (fi : List (Nat × (Nat × Nat))),
      alookup m i.access.file = some fi →
      (∀ p ∈ i.hit_parts, ∃ mm, alookup fi p.1 = some (mm, 0) ∧ p.2 ≤ mm) →
      (filterCall m i).2.bytes_hit = 0
      ∧ (filterCall m i).2.bytes_missed = i.bytes_hit + i.bytes_missed
      ∧ (filterCall m i).2.bytes_added = i.bytes_added + i.bytes_hit)
    ∧ c7run.map (fun i => (i.bytes_hit, i.bytes_missed, i.bytes_added))
        = some (0, 1, 1) := by
  constructor
  · intro m i fi hm hcov
    have hmap : i.hit_parts.map (fun ph =>
        match alookup fi ph.1 with
        | some ms => (ph.1, ph.2 - min ph.2 ms.1 + min ph.2 ms.2)
        | none => ph) = i.hit_parts.map (fun ph => (ph.1, 0)) := by
      apply List.map_congr_left
      intro p hp
      obtain ⟨mm, hlk, hle⟩ := hcov p hp
      rw [hlk]
      simp only [Nat.min_zero]
      rw [Nat.min_eq_left hle]
      simp
    have hzero : ((i.hit_parts.map (fun ph =>
        match alookup fi ph.1 with
        | some ms => (ph.1, ph.2 - min ph.2 ms.1 + min ph.2 ms.2)
        | none => ph)).map (·.2)).sum = 0 := by
      rw [hmap, List.map_map]
      exact sum_map_zero i.hit_parts
    simp only [filterCall, hm]
    refine ⟨hzero, ?_, ?_⟩
    · rw [hzero]
      omega
    · rw [hzero]
      omega
  · decide

/-- Witness for C7: the filter lemma applied to the marked state and the
info of the scenario's post-reset access. -/
theorem C7_warm_up_reset_witness :
    (filterCall [(0, [(0, (1, 0))])]
      ⟨⟨3, 0, [(0, 1)]⟩, [(0, 1)], true, 1, 0, 0, 0, 1, []⟩).2.bytes_hit = 0
    ∧ (filterCall [(0, [(0, (1, 0))])]
      ⟨⟨3, 0, [(0, 1)]⟩, [(0, 1)], true, 1, 0, 0, 0, 1, []⟩).2.bytes_missed = 1
    ∧ (filterCall [(0, [(0, (1, 0))])]
      ⟨⟨3, 0, [(0, 1)]⟩, [(0, 1)], true, 1, 0, 0, 0, 1, []⟩).2.bytes_added = 1 :=
  C7_warm_up_reset.1 [(0, [(0, (1, 0))])]
    ⟨⟨3, 0, [(0, 1)]⟩, [(0, 1)], true, 1, 0, 0, 0, 1, []⟩
    [(0, (1, 0))] (by decide)
    (by
      intro p hp
      simp only [List.mem_singleton] at hp
      subst hp
      exact ⟨1, rfl, by decide⟩)

/-- Claim C8 as stated is refuted on the uniform trace a, b, a, c over a
two-file cache when the priority queue is a plain min-heap (re-accessing
a file with unchanged priority leaves its heap position unchanged): at
access c the Landlord TOTAL_SIZE queue holds a and b with equal priority
1 and pops a, while LRU evicts b, so the eviction sequences differ. -/
theorem C8_counterexample :
    (runProc (llPolicy false LLMode.TOTAL_SIZE) 10 (Storage.mk0 2) ⟨[], 0⟩ 0
        c8trace).map (List.map (fun i => i.evicted_files)) = some [[], [], [], [0]]
    ∧ (runProc lruPolicy 10 (Storage.mk0 2) [] 0 c8trace).map
        (List.map (fun i => i.evicted_files)) = some [[], [], [], [1]] := by
  constructor
  · have h1 : processOneAccess (llPolicy false LLMode.TOTAL_SIZE) 10
        (Storage.mk0 2) ⟨[], 0⟩ 0 ⟨1, 0, [(0, 1)]⟩
        = some (⟨⟨1, 0, [(0, 1)]⟩, false, 0, 1, 1, 0, 1, []⟩,
            Storage.mk 2 1 [(0, [(0, 1)])], ⟨[⟨0, 1, 1, 0⟩], 0⟩) := by
      norm_num [processOneAccess, requestedBytes, Storage.containedBytes,
        Storage.containsFile, Storage.free_bytes, Storage.missingBytes,
        Storage.placeSt, placeStep, partGet, partsSum, alookup, aset, aremove,
        evictLoop, evictOne, Storage.evictFile, llPolicy, llPop, llProcAcc,
        llCredit, popMinEntry, removeEntryKey, setEntryKey, findEntry?,
        Storage.mk0]
    have h2 : processOneAccess (llPolicy false LLMode.TOTAL_SIZE) 10
        (Storage.mk 2 1 [(0, [(0, 1)])]) ⟨[⟨0, 1, 1, 0⟩], 0⟩ 1 ⟨2, 1, [(0, 1)]⟩
        = some (⟨⟨2, 1, [(0, 1)]⟩, false, 0, 1, 1, 0, 1, []⟩,
            Storage.mk 2 2 [(0, [(0, 1)]), (1, [(0, 1)])],
            ⟨[⟨0, 1, 1, 0⟩, ⟨1, 1, 1, 0⟩], 0⟩) := by
      norm_num [processOneAccess, requestedBytes, Storage.containedBytes,
        Storage.containsFile, Storage.free_bytes, Storage.missingBytes,
        Storage.placeSt, placeStep, partGet, partsSum, alookup, aset, aremove,
        evictLoop, evictOne, Storage.evictFile, llPolicy, llPop, llProcAcc,
        llCredit, popMinEntry, removeEntryKey, setEntryKey, findEntry?]
    have h3 : processOneAccess (llPolicy false LLMode.TOTAL_SIZE) 10
        (Storage.mk 2 2 [(0, [(0, 1)]), (1, [(0, 1)])])
        ⟨[⟨0, 1, 1, 0⟩, ⟨1, 1, 1, 0⟩], 0⟩ 2 ⟨3, 0, [(0, 1)]⟩
        = some (⟨⟨3, 0, [(0, 1)]⟩, true, 1, 0, 0, 0, 1, []⟩,
            Storage.mk 2 2 [(0, [(0, 1)]), (1, [(0, 1)])],
            ⟨[⟨0, 1, 1, 0⟩, ⟨1, 1, 1, 0⟩], 0⟩) := by
      norm_num [processOneAccess, requestedBytes, Storage.containedBytes,
        Storage.containsFile, Storage.free_bytes, Storage.missingBytes,
        Storage.placeSt, placeStep, partGet, partsSum, alookup, aset, aremove,
        evictLoop, evictOne, Storage.evictFile, llPolicy, llPop, llProcAcc,
        llCredit, popMinEntry, removeEntryKey, setEntryKey, findEntry?]
    have h4 : processOneAccess (llPolicy false LLMode.TOTAL_SIZE) 10
        (Storage.mk 2 2 [(0, [(0, 1)]), (1, [(0, 1)])])
        ⟨[⟨0, 1, 1, 0⟩, ⟨1, 1, 1, 0⟩], 0⟩ 3 ⟨4, 2, [(0, 1)]⟩
        = some (⟨⟨4, 2, [(0, 1)]⟩, false, 0, 1, 1, 1, 1, [0]⟩,
            Storage.mk 2 2 [(1, [(0, 1)]), (2, [(0, 1)])],
            ⟨[⟨1, 1, 1, 0⟩, ⟨2, 2, 1, 1⟩], 1⟩) := by
      norm_num [processOneAccess, requestedBytes, Storage.containedBytes,
        Storage.containsFile, Storage.free_bytes, Storage.missingBytes,
        Storage.placeSt, placeStep, partGet, partsSum, alookup, aset, aremove,
        evictLoop, evictOne, Storage.evictFile, llPolicy, llPop, llProcAcc,
        llCredit, popMinEntry, removeEntryKey, setEntryKey, findEntry?]
    simp [runProc, c8trace, h1, h2, h3, h4]
  · decide

/-- Witness for C10: a concrete overwrite-free trace of all five
operations. -/
theorem C10_total_size_witness :
    FInv (runFOps ⟨[], 0⟩
      [FOp.setitem 0 5, FOp.addBytesToFile 0 2, FOp.setitem 1 4, FOp.pop,
       FOp.removeBytesToFile 0 3, FOp.delitem 0]) :=
  C10_total_size
    [FOp.setitem 0 5, FOp.addBytesToFile 0 2, FOp.setitem 1 4, FOp.pop,
     FOp.removeBytesToFile 0 3, FOp.delitem 0] (by decide)

theorem alookup_isSome_iff_mem_keys {α : Type} (l : List (Nat × α)) (k : Nat) :
    (alookup l k).isSome ↔ k ∈ l.map Prod.fst := by
  induction l with
  | nil => simp [alookup]
  | cons hd tl ih =>
    obtain ⟨k', v'⟩ := hd
    by_cases h : k' = k
    · subst h; simp [alookup]
    · simp [alookup, h, ih, Ne.symm h]

theorem alookup_mem {α : Type} (l : List (Nat × α)) (k : Nat) (v : α)
    (h : alookup l k = some v) : (k, v) ∈ l := by
  induction l with
  | nil => simp [alookup] at h
  | cons hd tl ih =>
    obtain ⟨k', v'⟩ := hd
    by_cases hk : k' = k
    · subst hk
      simp [alookup] at h
      simp [h]
    · simp [alookup, hk] at h
      exact List.mem_cons_of_mem _ (ih h)

theorem keys_aremove {α : Type} (l : List (Nat × α)) (k : Nat) :
    (aremove l k).map Prod.fst = (l.map Prod.fst).erase k := by
  induction l with
  | nil => simp [aremove]
  | cons hd tl ih =>
    obtain ⟨k', v'⟩ := hd
    by_cases h : k' = k
    · subst h; simp [aremove, List.erase_cons]
    · simp [aremove, h, List.erase_cons, ih]

theorem keys_aset_absent {α : Type} (l : List (Nat × α)) (k : Nat) (v : α)
    (h : k ∉ l.map Prod.fst) : (aset l k v).map Prod.fst = l.map Prod.fst ++ [k] := by
  induction l with
  | nil => simp [aset]
  | cons hd tl ih =>
    obtain ⟨k', v'⟩ := hd
    simp only [List.map_cons, List.mem_cons] at h
    push_neg at h
    simp [aset, Ne.symm h.1, ih h.2]

theorem mem_aset {α : Type} (l : List (Nat × α)) (k : Nat) (v : α) (p : Nat × α)
    (h : p ∈ aset l k v) : p ∈ l ∨ p = (k, v) := by
  induction l with
  | nil => simp [aset] at h; simp [h]
  | cons hd tl ih =>
    obtain ⟨k', v'⟩ := hd
    by_cases hk : k' = k
    · subst hk
      simp [aset] at h
      rcases h with h | h
      · right; simp [h]
      · left; simp [h]
    · simp [aset, hk] at h
      rcases h with h | h
      · left; simp [h]
      · rcases ih h with h' | h'
        · left; exact List.mem_cons_of_mem _ h'
        · right; exact h'

theorem mem_aremove {α : Type} (l : List (Nat × α)) (k : Nat) (p : Nat × α)
    (h : p ∈ aremove l k) : p ∈ l := by
  induction l with
  | nil => simp [aremove] at h
  | cons hd tl ih =>
    obtain ⟨k', v'⟩ := hd
    by_cases hk : k' = k
    · subst hk
      simp [aremove] at h
      exact List.mem_cons_of_mem _ h
    · simp [aremove, hk] at h
      rcases h with h | h
      · simp [h]
      · exact List.mem_cons_of_mem _ (ih h)

theorem findEntry?_eq_none_of_not_mem (l : List LLEntry) (f : Nat)
    (h : f ∉ l.map LLEntry.file) : findEntry? l f = none := by
  induction l with
  | nil => simp [findEntry?]
  | cons hd tl ih =>
    simp only [List.map_cons, List.mem_cons] at h
    push_neg at h
    simp [findEntry?, Ne.symm h.1, ih h.2]

theorem findEntry?_isSome_of_mem (l : List LLEntry) (f : Nat)
    (h : f ∈ l.map LLEntry.file) : (findEntry? l f).isSome := by
  induction l with
  | nil => simp at h
  | cons hd tl ih =>
    by_cases hf : hd.file = f
    · simp [findEntry?, hf]
    · simp only [List.map_cons, List.mem_cons] at h
      rcases h with h | h
      · exact absurd h.symm hf
      · simp [findEntry?, hf, ih h]

theorem map_removeEntryKey (l : List LLEntry) (f : Nat) :
    (removeEntryKey l f).map LLEntry.file = (l.map LLEntry.file).erase f := by
  induction l with
  | nil => simp [removeEntryKey]
  | cons hd tl ih =>
    by_cases hf : hd.file = f
    · simp [removeEntryKey, hf, List.erase_cons]
    · simp [removeEntryKey, hf, List.erase_cons, ih]

theorem removeEntryKey_sublist (l : List LLEntry) (f : Nat) :
    (removeEntryKey l f).Sublist l := by
  induction l with
  | nil => simp [removeEntryKey]
  | cons hd tl ih =>
    by_cases hf : hd.file = f
    · simp only [removeEntryKey, hf, if_pos]
      exact List.sublist_cons_self hd tl
    · simp only [removeEntryKey, hf, if_neg, ite_false]
      exact List.Sublist.cons₂ hd ih

theorem popMinEntry_mem (l : List LLEntry) (m : LLEntry × List LLEntry)
    (h : popMinEntry l = some m) : m.1 ∈ l := by
  induction l generalizing m with
  | nil => simp [popMinEntry] at h
  | cons hd tl ih =>
    simp only [popMinEntry] at h
    cases hp : popMinEntry tl with
    | none =>
      simp only [hp, Option.some.injEq] at h
      rw [← h]
      exact List.mem_cons_self hd tl
    | some m' =>
      simp only [hp] at h
      by_cases hle : hd.value ≤ m'.1.value
      · rw [if_pos hle] at h
        simp only [Option.some.injEq] at h
        rw [← h]
        exact List.mem_cons_self hd tl
      · rw [if_neg hle] at h
        simp only [Option.some.injEq] at h
        rw [← h]
        exact List.mem_cons_of_mem _ (ih m' hp)

theorem popMinEntry_eq_none_iff (l : List LLEntry) :
    popMinEntry l = none ↔ l = [] := by
  cases l with
  | nil => simp [popMinEntry]
  | cons hd tl =>
    simp only [popMinEntry]
    cases hp : popMinEntry tl with
    | none => simp
    | some m => by_cases hle : hd.value ≤ m.1.value <;> simp [hle]

theorem popMinEntry_cons_min (e : LLEntry) (rest : List LLEntry)
    (h : ∀ x ∈ rest, e.value ≤ x.value) :
    popMinEntry (e :: rest) = some (e, rest) := by
  simp only [popMinEntry]
  cases hp : popMinEntry rest with
  | none => rw [(popMinEntry_eq_none_iff rest).mp hp]
  | some m =>
    have hm := popMinEntry_mem rest m hp
    simp [h m.1 hm]

theorem reverse_erase_nodup (l : List Nat) (f : Nat) (h : l.Nodup) :
    l.reverse.erase f = (l.erase f).reverse := by
  rw [List.Nodup.erase_eq_filter (List.nodup_reverse.mpr h) f,
    List.Nodup.erase_eq_filter h f, List.filter_reverse]

theorem chain'_le_concat (l : List ℚ) (v : ℚ) (hc : List.Chain' (· ≤ ·) l)
    (hb : ∀ x ∈ l, x ≤ v) : List.Chain' (· ≤ ·) (l ++ [v]) := by
  rw [List.chain'_append]
  refine ⟨hc, List.chain'_singleton v, ?_⟩
  intro x hx y hy
  simp only [List.head?_cons, Option.mem_def, Option.some.injEq] at hy
  subst hy
  rcases List.mem_getLast?_eq_getLast hx with ⟨hne, rfl⟩
  exact hb _ (List.getLast_mem hne)

theorem llLoop_step (s : Nat) (a : Access) (ind rq : Nat) (fuel : Nat) :
    ∀ (stL : LLState) (lru : List Nat) (ls : LoopSt),
    LLInv s ls.storage stL lru → a.file ∉ lru →
    (evictLoop (llPolicy true LLMode.TOTAL_SIZE) a ind rq fuel stL ls = none
       ∧ evictLoop lruPolicy a ind rq fuel lru ls = none)
    ∨ (∃ stL' lru' ls',
        evictLoop (llPolicy true LLMode.TOTAL_SIZE) a ind rq fuel stL ls
          = some (stL', ls')
        ∧ evictLoop lruPolicy a ind rq fuel lru ls = some (lru', ls')
        ∧ LLInv s ls'.storage stL' lru' ∧ a.file ∉ lru'
        ∧ ls'.contained_bytes = ls.contained_bytes
        ∧ ls'.missing_bytes = ls.missing_bytes
        ∧ ls'.in_cache_bytes = ls.in_cache_bytes) := by
  induction fuel with
  | zero =>
    intro stL lru ls _ _
    exact Or.inl ⟨rfl, rfl⟩
  | succ fuel ih =>
    intro stL lru ls hinv hnm
    by_cases hcond : ls.free_bytes < (ls.missing_bytes : Int)
    · obtain ⟨h1, h2, h3, h4, h5, h6, h7⟩ := hinv
      cases hent : stL.entries with
      | nil =>
        have hlru : lru = [] := by
          have h1' := h1
          rw [hent] at h1'
          simpa using (List.reverse_eq_nil_iff.mp h1'.symm)
        subst hlru
        left
        constructor
        · simp only [evictLoop, if_pos hcond, llPolicy, llPop, hent, popMinEntry]
        · simp only [evictLoop, if_pos hcond, lruPolicy, lruPop, List.getLast?_nil]
      | cons e rest =>
        have hpw : List.Pairwise (· ≤ ·) (stL.entries.map LLEntry.value) :=
          List.chain'_iff_pairwise.mp h6
        rw [hent, List.map_cons, List.pairwise_cons] at hpw
        have hmin : ∀ x ∈ rest, e.value ≤ x.value := by
          intro x hx
          exact hpw.1 _ (List.mem_map_of_mem LLEntry.value hx)
        have hpop : popMinEntry stL.entries = some (e, rest) := by
          rw [hent]
          exact popMinEntry_cons_min e rest hmin
        have hlpop : llPop stL = some ([e.file], ⟨rest, e.value⟩) := by
          simp [llPop, hpop]
        have hlru : lru = (rest.map LLEntry.file).reverse ++ [e.file] := by
          have h1' : e.file :: rest.map LLEntry.file = lru.reverse := by
            rw [← h1, hent, List.map_cons]
          calc lru = lru.reverse.reverse := (List.reverse_reverse lru).symm
            _ = (e.file :: rest.map LLEntry.file).reverse := by rw [← h1']
            _ = (rest.map LLEntry.file).reverse ++ [e.file] := by
                rw [List.reverse_cons]
        have hgl : lru.getLast? = some e.file := by
          rw [hlru]
          exact List.getLast?_concat _
        have hdl : lru.dropLast = (rest.map LLEntry.file).reverse := by
          rw [hlru]
          exact List.dropLast_concat
        have hrpop : lruPop lru = some ([e.file], lru.dropLast) := by
          simp [lruPop, hgl]
        have hefm : e.file ∈ lru := by
          rw [hlru]
          simp
        have hane : e.file ≠ a.file := fun h => hnm (h ▸ hefm)
        have hnd' : lru.dropLast.Nodup := (List.dropLast_sublist lru).nodup h2
        have hef_not : e.file ∉ lru.dropLast := by
          rw [hdl]
          intro hmem
          have h2' := h2
          rw [hlru, List.nodup_append] at h2'
          exact h2'.2.2 hmem (by simp)
        have hmem_dl : ∀ f, f ∈ lru.dropLast ↔ f ∈ lru ∧ f ≠ e.file := by
          intro f
          constructor
          · intro hf
            refine ⟨List.Sublist.mem hf (List.dropLast_sublist lru), ?_⟩
            intro he
            subst he
            exact hef_not hf
          · rintro ⟨hf, hne⟩
            rw [hlru] at hf
            rcases List.mem_append.mp hf with hf | hf
            · rw [hdl]
              exact hf
            · simp at hf
              exact absurd hf hne
        have hnm1 : a.file ∉ lru.dropLast := by
          rw [hmem_dl]
          intro hf
          exact hnm hf.1
        have hsome : (alookup ls.storage.files e.file).isSome := (h4 e.file).mpr hefm
        obtain ⟨fp, hfp⟩ := Option.isSome_iff_exists.mp hsome
        have hstor1 : (evictOne a.file rq ls e.file).storage
            = (ls.storage.evictFile e.file).1 := by
          simp [evictOne, hane]
        have hfiles1 : (ls.storage.evictFile e.file).1.files
            = aremove ls.storage.files e.file := by
          simp [Storage.evictFile, hfp]
        have hpres : (evictOne a.file rq ls e.file).contained_bytes = ls.contained_bytes
            ∧ (evictOne a.file rq ls e.file).missing_bytes = ls.missing_bytes
            ∧ (evictOne a.file rq ls e.file).in_cache_bytes = ls.in_cache_bytes := by
          refine ⟨?_, ?_, ?_⟩ <;> simp [evictOne, hane]
        have hthr : stL.rent_threshold ≤ e.value :=
          (h7 e (by rw [hent]; exact List.mem_cons_self e rest)).1
        have hinv1 : LLInv s (evictOne a.file rq ls e.file).storage
            ⟨rest, e.value⟩ lru.dropLast := by
          rw [hstor1]
          refine ⟨?_, hnd', ?_, ?_, ?_, ?_, ?_⟩
          · rw [hdl, List.reverse_reverse]
          · rw [hfiles1, keys_aremove]
            exact List.Nodup.erase e.file h3
          · intro f
            rw [hfiles1, alookup_isSome_iff_mem_keys, keys_aremove,
              List.Nodup.mem_erase_iff h3, ← alookup_isSome_iff_mem_keys,
              h4 f, hmem_dl f]
            tauto
          · intro p hp
            rw [hfiles1] at hp
            exact h5 p (mem_aremove _ _ _ hp)
          · have h6' := h6
            rw [hent, List.map_cons] at h6'
            exact h6'.tail
          · intro x hx
            have hb := h7 x (by rw [hent]; exact List.mem_cons_of_mem e hx)
            exact ⟨hmin x hx, by linarith [hb.2]⟩
        have hllstep : evictLoop (llPolicy true LLMode.TOTAL_SIZE) a ind rq
              (fuel + 1) stL ls
            = evictLoop (llPolicy true LLMode.TOTAL_SIZE) a ind rq fuel
              ⟨rest, e.value⟩ (evictOne a.file rq ls e.file) := by
          simp only [evictLoop, if_pos hcond, llPolicy, hlpop, List.foldl_cons,
            List.foldl_nil]
        have hlrustep : evictLoop lruPolicy a ind rq (fuel + 1) lru ls
            = evictLoop lruPolicy a ind rq fuel lru.dropLast
              (evictOne a.file rq ls e.file) := by
          simp only [evictLoop, if_pos hcond, lruPolicy, hrpop, List.foldl_cons,
            List.foldl_nil]
        rcases ih ⟨rest, e.value⟩ lru.dropLast (evictOne a.file rq ls e.file)
            hinv1 hnm1 with ⟨hL, hR⟩ |
            ⟨stL', lru', ls', hL, hR, hinv', hnm', hc', hm', hic'⟩
        · left
          exact ⟨by rw [hllstep]; exact hL, by rw [hlrustep]; exact hR⟩
        · right
          refine ⟨stL', lru', ls', by rw [hllstep]; exact hL,
            by rw [hlrustep]; exact hR, hinv', hnm', ?_, ?_, ?_⟩
          · rw [hc']
            exact hpres.1
          · rw [hm']
            exact hpres.2.1
          · rw [hic']
            exact hpres.2.2
    · right
      refine ⟨stL, lru, ls, ?_, ?_, hinv, hnm, rfl, rfl, rfl⟩
      · simp only [evictLoop, if_neg hcond]
      · simp only [evictLoop, if_neg hcond]

theorem llProc_step (s : Nat) (hs : 0 < s) (fuel : Nat) (storage : Storage)
    (stL : LLState) (lru : List Nat) (ind : Nat) (a : Access)
    (ha : a.parts = [(0, s)]) (hinv : LLInv s storage stL lru) :
    (processOneAccess (llPolicy true LLMode.TOTAL_SIZE) fuel storage stL ind a = none
       ∧ processOneAccess lruPolicy fuel storage lru ind a = none)
    ∨ ∃ info storage' stL' lru',
        processOneAccess (llPolicy true LLMode.TOTAL_SIZE) fuel storage stL ind a
          = some (info, storage', stL')
        ∧ processOneAccess lruPolicy fuel storage lru ind a
          = some (info, storage', lru')
        ∧ LLInv s storage' stL' lru' := by
  obtain ⟨ts, f, parts⟩ := a
  replace ha : parts = [(0, s)] := ha
  subst ha
  obtain ⟨h1, h2, h3, h4, h5, h6, h7⟩ := hinv
  have hs' : s ≠ 0 := Nat.pos_iff_ne_zero.mp hs
  have hsnz : (s : ℚ) ≠ 0 := Nat.cast_ne_zero.mpr hs'
  by_cases hmem : f ∈ lru
  · -- hit: the file is fully cached, the access takes the missing_bytes = 0 path
    have hsome : (alookup storage.files f).isSome := (h4 f).mpr hmem
    obtain ⟨fp, hfp⟩ := Option.isSome_iff_exists.mp hsome
    have hfpe : fp = [(0, s)] := h5 (f, fp) (alookup_mem _ _ _ hfp)
    subst hfpe
    have hcont : storage.containedBytes f [(0, s)] = s := by
      simp [Storage.containedBytes, hfp, partGet, alookup]
    have hLL : processOneAccess (llPolicy true LLMode.TOTAL_SIZE) fuel storage stL
          ind ⟨ts, f, [(0, s)]⟩
        = some (⟨⟨ts, f, [(0, s)]⟩, true, s, 0, 0, 0, s, []⟩, storage,
            llProcAcc true LLMode.TOTAL_SIZE stL f
              ⟨⟨ts, f, [(0, s)]⟩, true, s, 0, 0, 0, s, []⟩) := by
      simp [processOneAccess, requestedBytes, hcont, hfp, partsSum, llPolicy]
    have hLR : processOneAccess lruPolicy fuel storage lru ind ⟨ts, f, [(0, s)]⟩
        = some (⟨⟨ts, f, [(0, s)]⟩, true, s, 0, 0, 0, s, []⟩, storage,
            f :: lru.erase f) := by
      simp [processOneAccess, requestedBytes, hcont, hfp, partsSum, lruPolicy,
        lruProcAcc, hmem]
    have hfind : (findEntry? stL.entries f).isSome :=
      findEntry?_isSome_of_mem _ _ (by rw [h1, List.mem_reverse]; exact hmem)
    obtain ⟨e0, he0⟩ := Option.isSome_iff_exists.mp hfind
    have hproc : llProcAcc true LLMode.TOTAL_SIZE stL f
          ⟨⟨ts, f, [(0, s)]⟩, true, s, 0, 0, 0, s, []⟩
        = ⟨removeEntryKey stL.entries f
             ++ [⟨f, 1 + stL.rent_threshold, s, stL.rent_threshold⟩],
           stL.rent_threshold⟩ := by
      simp [llProcAcc, he0, llCredit, div_self hsnz]
    have hperm : lru.Perm (f :: lru.erase f) := List.perm_cons_erase hmem
    right
    refine ⟨_, storage, _, f :: lru.erase f, hLL, hLR, ?_⟩
    rw [hproc]
    refine ⟨?_, hperm.nodup_iff.mp h2, h3, ?_, h5, ?_, ?_⟩
    · simp only [List.map_append, List.map_cons, List.map_nil]
      rw [map_removeEntryKey, h1, reverse_erase_nodup lru f h2, List.reverse_cons]
    · intro g
      rw [h4 g]
      exact hperm.mem_iff
    · simp only [List.map_append, List.map_cons, List.map_nil]
      refine chain'_le_concat _ _
        (List.Chain'.sublist h6
          (List.Sublist.map _ (removeEntryKey_sublist _ _))) ?_
      intro x hx
      simp only [List.mem_map] at hx
      obtain ⟨e1, he1, rfl⟩ := hx
      exact (h7 e1 (List.Sublist.mem he1 (removeEntryKey_sublist _ _))).2
    · intro e1 he1
      rcases List.mem_append.mp he1 with he1 | he1
      · exact h7 e1 (List.Sublist.mem he1 (removeEntryKey_sublist _ _))
      · simp only [List.mem_singleton] at he1
        subst he1
        constructor
        · simp
        · simp
  · -- miss: the file is absent, the access takes the eviction-loop path
    have hnone : alookup storage.files f = none :=
      Option.not_isSome_iff_eq_none.mp (fun h => hmem ((h4 f).mp h))
    have hcont0 : storage.containedBytes f [(0, s)] = 0 := by
      simp [Storage.containedBytes, hnone]
    have hinvls : LLInv s
        ((⟨storage, storage.free_bytes, [], 0, 0, s, 0⟩ : LoopSt)).storage stL lru :=
      ⟨h1, h2, h3, h4, h5, h6, h7⟩
    rcases llLoop_step s ⟨ts, f, [(0, s)]⟩ ind s fuel stL lru
        ⟨storage, storage.free_bytes, [], 0, 0, s, 0⟩ hinvls hmem with
        ⟨hL, hR⟩ | ⟨stL', lru', ls', hL, hR, hinv', hnm', hc', hm', hic'⟩
    · left
      constructor
      · simp [processOneAccess, requestedBytes, hcont0, hnone, hs', hL, partsSum]
      · simp [processOneAccess, requestedBytes, hcont0, hnone, hs', hR, partsSum]
    · obtain ⟨g1, g2, g3, g4, g5, g6, g7⟩ := hinv'
      have hnone' : alookup ls'.storage.files f = none :=
        Option.not_isSome_iff_eq_none.mp (fun h => hnm' ((g4 f).mp h))
      have hcont' : ls'.storage.containedBytes f [(0, s)] = 0 := by
        simp [Storage.containedBytes, hnone']
      have hmiss' : ls'.storage.missingBytes f [(0, s)] = s := by
        simp [Storage.missingBytes, requestedBytes, hcont']
      by_cases hfree : ls'.storage.free_bytes < (s : Int)
      · -- place raises InsufficientFreeSpace on both sides
        have hplace : ls'.storage.placeSt f [(0, s)] = (ls'.storage, none) := by
          simp [Storage.placeSt, hmiss', hfree]
        left
        constructor
        · simp [processOneAccess, requestedBytes, hcont0, hnone, hs', hL, hplace, partsSum]
        · simp [processOneAccess, requestedBytes, hcont0, hnone, hs', hR, hplace, partsSum]
      · have hplace : ls'.storage.placeSt f [(0, s)] =
            ({ ls'.storage with
                files := aset ls'.storage.files f [(0, s)],
                used_bytes := ls'.storage.used_bytes + (s : Int) }, some s) := by
          simp [Storage.placeSt, hmiss', hfree, hnone, hnone', placeStep, partGet,
            alookup, aset]
        have hLLfull : processOneAccess (llPolicy true LLMode.TOTAL_SIZE) fuel
              storage stL ind ⟨ts, f, [(0, s)]⟩
            = some (⟨⟨ts, f, [(0, s)]⟩, false, 0, s, s, ls'.evicted_bytes, s,
                  ls'.evicted_files⟩,
                { ls'.storage with
                  files := aset ls'.storage.files f [(0, s)],
                  used_bytes := ls'.storage.used_bytes + (s : Int) },
                llProcAcc true LLMode.TOTAL_SIZE stL' f
                  ⟨⟨ts, f, [(0, s)]⟩, false, 0, s, s, ls'.evicted_bytes, s,
                   ls'.evicted_files⟩) := by
          simp only [processOneAccess, requestedBytes, partsSum, List.map_cons,
            List.map_nil, List.sum_cons, List.sum_nil, Nat.add_zero, hcont0,
            Nat.sub_zero, hnone, Option.getD_none, hs', hL, hplace,
            Storage.containsFile, hc', hm', hic']
          simp [llPolicy]
        have herase : (lru' ++ [f]).erase f = lru' := by
          rw [List.erase_append_right _ hnm', List.erase_cons_head]
          simp
        have hlruproc : lruProcAcc lru' f true = some (f :: lru') := by
          simp [lruProcAcc, lruSet, hnm', herase]
        have hLRfull : processOneAccess lruPolicy fuel storage lru ind
              ⟨ts, f, [(0, s)]⟩
            = some (⟨⟨ts, f, [(0, s)]⟩, false, 0, s, s, ls'.evicted_bytes, s,
                  ls'.evicted_files⟩,
                { ls'.storage with
                  files := aset ls'.storage.files f [(0, s)],
                  used_bytes := ls'.storage.used_bytes + (s : Int) },
                f :: lru') := by
          simp only [processOneAccess, requestedBytes, partsSum, List.map_cons,
            List.map_nil, List.sum_cons, List.sum_nil, Nat.add_zero, hcont0,
            Nat.sub_zero, hnone, Option.getD_none, hs', hR, hplace,
            Storage.containsFile, hc', hm', hic']
          simp [lruPolicy, hlruproc]
        have hfind0 : findEntry? stL'.entries f = none :=
          findEntry?_eq_none_of_not_mem _ _
            (by rw [g1, List.mem_reverse]; exact hnm')
        have hproc : llProcAcc true LLMode.TOTAL_SIZE stL' f
              ⟨⟨ts, f, [(0, s)]⟩, false, 0, s, s, ls'.evicted_bytes, s,
               ls'.evicted_files⟩
            = ⟨stL'.entries
                 ++ [⟨f, 1 + stL'.rent_threshold, s, stL'.rent_threshold⟩],
               stL'.rent_threshold⟩ := by
          simp [llProcAcc, hfind0, llCredit, div_self hsnz]
        have hkeys : f ∉ ls'.storage.files.map Prod.fst := by
          rw [← alookup_isSome_iff_mem_keys]
          simp [hnone']
        right
        refine ⟨_, _, _, f :: lru', hLLfull, hLRfull, ?_⟩
        rw [hproc]
        refine ⟨?_, ?_, ?_, ?_, ?_, ?_, ?_⟩
        · simp only [List.map_append, List.map_cons, List.map_nil,
            List.reverse_cons]
          rw [g1]
        · exact List.nodup_cons.mpr ⟨hnm', g2⟩
        · simp only []
          rw [keys_aset_absent _ _ _ hkeys, List.nodup_append]
          refine ⟨g3, List.nodup_singleton f, ?_⟩
          intro x hx hxf
          simp only [List.mem_singleton] at hxf
          subst hxf
          exact hkeys hx
        · intro g
          by_cases hg : g = f
          · subst hg
            simp [alookup_aset_self]
          · simp only []
            rw [alookup_aset_ne _ _ _ _ (fun h => hg h.symm), g4 g]
            simp [hg]
        · intro p hp
          simp only [] at hp
          rcases mem_aset _ _ _ _ hp with hp | hp
          · exact g5 p hp
          · rw [hp]
        · simp only [List.map_append, List.map_cons, List.map_nil]
          refine chain'_le_concat _ _ g6 ?_
          intro x hx
          simp only [List.mem_map] at hx
          obtain ⟨e1, he1, rfl⟩ := hx
          exact (g7 e1 he1).2
        · intro e1 he1
          rcases List.mem_append.mp he1 with he1 | he1
          · exact g7 e1 he1
          · simp only [List.mem_singleton] at he1
            subst he1
            constructor
            · simp
            · simp

theorem runProc_ll_lru (s : Nat) (hs : 0 < s) (fuel : Nat) (accs : List Access) :
    ∀ (storage : Storage) (stL : LLState) (lru : List Nat) (ind : Nat),
    (∀ a ∈ accs, a.parts = [(0, s)]) → LLInv s storage stL lru →
    runProc (llPolicy true LLMode.TOTAL_SIZE) fuel storage stL ind accs
      = runProc lruPolicy fuel storage lru ind accs := by
  induction accs with
  | nil =>
    intro storage stL lru ind _ _
    rfl
  | cons a rest ih =>
    intro storage stL lru ind huni hinv
    rcases llProc_step s hs fuel storage stL lru ind a
        (huni a (List.mem_cons_self a rest)) hinv with
        ⟨hL, hR⟩ | ⟨info, storage', stL', lru', hL, hR, hinv'⟩
    · simp only [runProc, hL, hR]
    · simp only [runProc, hL, hR]
      rw [ih storage' stL' lru' (ind + 1)
        (fun b hb => huni b (List.mem_cons_of_mem a hb)) hinv']

/-- Claim C8 (amended): with the keyed priority queue modelled as a stable
min-queue that moves every re-valued entry behind all entries of equal
value, a Landlord TOTAL_SIZE processor started on an empty cache is
indistinguishable from the LRU processor on every trace of uniform
single-part file sizes: both emit the same AccessInfo sequence (and hence
the same evicted files in the same order), or fail identically. -/
theorem C8_landlord_lru_uniform (s : Nat) (hs : 0 < s) (fuel cap ind : Nat)
    (accs : List Access) (huni : ∀ a ∈ accs, a.parts = [(0, s)]) :
    runProc (llPolicy true LLMode.TOTAL_SIZE) fuel (Storage.mk0 cap) ⟨[], 0⟩
        ind accs
      = runProc lruPolicy fuel (Storage.mk0 cap) [] ind accs := by
  refine runProc_ll_lru s hs fuel accs (Storage.mk0 cap) ⟨[], 0⟩ [] ind huni ?_
  refine ⟨rfl, List.nodup_nil, ?_, ?_, ?_, ?_, ?_⟩ <;> simp [Storage.mk0, alookup]

/-- Witness for C8: the amended equivalence applied to the concrete uniform
trace of the counterexample. -/
theorem C8_landlord_lru_uniform_witness :
    0 < 1 ∧ (∀ a ∈ c8trace, a.parts = [(0, 1)])
    ∧ runProc (llPolicy true LLMode.TOTAL_SIZE) 10 (Storage.mk0 2) ⟨[], 0⟩ 0
        c8trace
      = runProc lruPolicy 10 (Storage.mk0 2) [] 0 c8trace :=
  ⟨by decide, by decide,
    C8_landlord_lru_uniform 1 (by decide) 10 2 0 c8trace (by decide)⟩

end Sim
